import Mathlib

/-!
# zbpack: PHP plan inference (`internal/php/plan.go`)

A shallow embedding of the four queries of `internal/php/plan.go`
(`GetPHPVersion`, `DetermineProjectFramework`, `DetermineAptDependencies`,
`DetermineApplication`) together with the Go library routines they call
(`strings.HasPrefix`, `strings.TrimPrefix`, `strings.Split`,
`regexp.MatchString`, `strconv.ParseFloat`, float64 addition and
`fmt.Sprintf("%f", _)`).

Go strings are byte sequences; they are embedded as Lean `String`s (lists of
Unicode scalars).  Every byte the code inspects is ASCII (space, `<`, `>`,
`=`, digits, `.`, ...), and UTF-8 never encodes a non-ASCII scalar with an
ASCII byte, so prefix tests and splitting agree on both views.
-/

namespace Zbpack

/-! ## Package `strings` -/

namespace strings

/-- Go `strings.HasPrefix(s, prefix)`. -/
def HasPrefix (s pre : String) : Bool :=
  pre.data.isPrefixOf s.data

/-- Go `strings.TrimPrefix(s, prefix)`: `s` without the leading `prefix`,
or `s` itself when it does not start with `prefix`. -/
def TrimPrefix (s pre : String) : String :=
  if HasPrefix s pre then String.mk (s.data.drop pre.data.length) else s

/-- The pieces of a character list between occurrences of `sep`;
the least result is one (possibly empty) piece. -/
def splitChars (sep : Char) : List Char → List (List Char)
  | [] => [[]]
  | c :: cs =>
    if c = sep then [] :: splitChars sep cs
    else
      match splitChars sep cs with
      | [] => [[c]]
      | p :: ps => (c :: p) :: ps

/-- Go `strings.Split(s, sep)` for a one-byte separator (the only call site
passes `" "`): all substrings between separators, `n + 1` pieces for `n`
separators. -/
def Split (s : String) (sep : Char) : List String :=
  (splitChars sep s.data).map String.mk

end strings

/-! ## Package `regexp` -/

namespace regexp

/-- The class `\d` of Go (RE2) regular expressions: the ASCII digits. -/
def digit : RegularExpression Char :=
  .char '0' + .char '1' + .char '2' + .char '3' + .char '4' +
  .char '5' + .char '6' + .char '7' + .char '8' + .char '9'

/-- The body of the pattern `^\d+(\.\d+){0,2}$`:
`\d+` is `\d\d*`, and `X{0,2}` is `(X(X)?)?`. -/
def versionPattern : RegularExpression Char :=
  let digits := digit * .star digit
  let group := .char '.' * digits
  digits * (1 + group * (1 + group))

/-- Go `regexp.MatchString` for the pattern `^\d+(\.\d+){0,2}$`.  The pattern is
anchored at both ends (`$` without the `m` flag is end of text), so it is a
match of the whole string. -/
def MatchString (s : String) : Bool :=
  versionPattern.rmatch s.data

end regexp

/-! ## float64 values, arithmetic and formatting -/

/-- An IEEE-754 binary64 value.  `fin neg mant exp` stands for the number
`(-1)^neg * mant * 2^exp`; the zeros are the values with `mant = 0`. -/
inductive Float64
  | nan
  | inf (neg : Bool)
  | fin (neg : Bool) (mant : Nat) (exp : Int)
  deriving DecidableEq, Repr

namespace Float64

/-- The integer nearest to `num / den`, ties going to the even integer. -/
def roundHalfEven (num den : Nat) : Nat :=
  let q := num / den
  let r := num % den
  if 2 * r < den then q
  else if den < 2 * r then q + 1
  else if q % 2 = 0 then q else q + 1

/-- The fraction `(num / den) / 2^e` as a numerator and a denominator. -/
def shiftFrac (num den : Nat) (e : Int) : Nat × Nat :=
  match e with
  | Int.ofNat k => (num, den * 2 ^ k)
  | Int.negSucc k => (num * 2 ^ (k + 1), den)

/-- The integer `⌊log₂ n⌋` for positive `n` (and `0` for `0`), computed with
at most `fuel` halvings. -/
def log2Fuel : Nat → Nat → Nat
  | 0, _ => 0
  | fuel + 1, n => if n < 2 then 0 else log2Fuel fuel (n / 2) + 1

/-- The integer `⌊log₂ n⌋` for positive `n`. -/
def log2 (n : Nat) : Nat := log2Fuel n n

/-- The integer `⌊log₂ (num / den)⌋` for positive `num` and `den`. -/
def floorLog2 (num den : Nat) : Int :=
  let l : Int := (log2 num : Int) - (log2 den : Int)
  if (shiftFrac num den l).2 ≤ (shiftFrac num den l).1 then l else l - 1

/-- Round-to-nearest-even conversion of the non-negative rational `num / den`
(with sign `neg`) to binary64: 53 significant bits, least exponent `-1074`
(subnormals), and infinity past the largest finite value
`(2^53 - 1) * 2^971`. -/
def ofRat (neg : Bool) (num den : Nat) : Float64 :=
  if num = 0 then .fin neg 0 0
  else
    let e := max (floorLog2 num den - 52) (-1074)
    let m := roundHalfEven (shiftFrac num den e).1 (shiftFrac num den e).2
    if 971 < e ∨ (e = 971 ∧ 2 ^ 53 ≤ m) then .inf neg else .fin neg m e

/-- Round-to-nearest-even conversion of `n * base^e` to binary64. -/
def ofScaled (neg : Bool) (n base : Nat) (e : Int) : Float64 :=
  match e with
  | Int.ofNat k => ofRat neg (n * base ^ k) 1
  | Int.negSucc k => ofRat neg n (base ^ (k + 1))

/-- The integer `(-1)^neg * n`. -/
def signed (neg : Bool) (n : Nat) : Int :=
  if neg then -(n : Int) else (n : Int)

/-- IEEE-754 addition, rounding to nearest even. -/
def add : Float64 → Float64 → Float64
  | .nan, _ => .nan
  | _, .nan => .nan
  | .inf a, .inf b => if a = b then .inf a else .nan
  | .inf a, .fin _ _ _ => .inf a
  | .fin _ _ _, .inf b => .inf b
  | .fin n1 m1 e1, .fin n2 m2 e2 =>
    let e := min e1 e2
    let s : Int := signed n1 (m1 * 2 ^ (e1 - e).toNat) + signed n2 (m2 * 2 ^ (e2 - e).toNat)
    if s = 0 then .fin (n1 && n2) 0 0
    else ofScaled (decide (s < 0)) s.natAbs 2 e

/-- IEEE-754 negation. -/
def neg : Float64 → Float64
  | .nan => .nan
  | .inf a => .inf (!a)
  | .fin n m e => .fin (!n) m e

/-- IEEE-754 subtraction. -/
def sub (x y : Float64) : Float64 := add x (neg y)

/-- The float64 constant `0.1` of the source: the binary64 nearest to 1/10. -/
def oneTenth : Float64 := ofRat false 1 10

/-- The `k` low decimal digits of `n`, most significant first. -/
def padDigits : Nat → Nat → List Char
  | 0, _ => []
  | k + 1, n => padDigits k (n / 10) ++ [Nat.digitChar (n % 10)]

end Float64

namespace fmt

/-- Go `fmt.Sprintf("%f", value)`: the value rounded (half to even) to six
fractional digits, as sign, integer digits, `.` and six digits; the
non-finite values print as `+Inf`, `-Inf` and `NaN`. -/
def Sprintf_f : Float64 → String
  | .nan => "NaN"
  | .inf false => "+Inf"
  | .inf true => "-Inf"
  | .fin neg m e =>
    let n := Float64.roundHalfEven (Float64.shiftFrac (m * 10 ^ 6) 1 (-e)).1
      (Float64.shiftFrac (m * 10 ^ 6) 1 (-e)).2
    String.mk ((if neg then [ '-' ] else []) ++ Nat.toDigits 10 (n / 10 ^ 6)
      ++ [ '.' ] ++ Float64.padDigits 6 (n % 10 ^ 6))

end fmt

/-! ## Package `strconv` -/

namespace strconv

/-- The two errors of `strconv`: malformed text, and a value out of range. -/
inductive NumError
  | ErrSyntax
  | ErrRange
  deriving DecidableEq, Repr

/-- Go `lower(c)`: the byte `c | ('x' - 'X')`, the lower-case form of an
ASCII letter. -/
def lower (c : Char) : Nat := c.toNat ||| 0x20

/-- Whether `c` is one of the bytes `'0'` to `'9'`. -/
def isDigit (c : Char) : Bool := decide ('0' ≤ c) && decide (c ≤ '9')

/-- Go `commonPrefixLenIgnoreCase(s, prefix)`, for a lower-case `prefix`. -/
def commonPrefixLenIgnoreCase : List Char → List Char → Nat
  | [], _ => 0
  | _ :: _, [] => 0
  | c :: s, p :: ps =>
    let c1 := if 'A' ≤ c ∧ c ≤ 'Z' then Char.ofNat (c.toNat + 32) else c
    if c1 ≠ p then 0 else commonPrefixLenIgnoreCase s ps + 1

/-- The `'i', 'I'` case of Go `special`: `s` after the optional sign, `nsign`
the length of that sign. -/
def specialInf (neg : Bool) (nsign : Nat) (s : List Char) : Option (Float64 × Nat) :=
  let n := commonPrefixLenIgnoreCase s "infinity".data
  let n := if 3 < n ∧ n < 8 then 3 else n
  if n = 3 ∨ n = 8 then some (.inf neg, nsign + n) else none

/-- Go `special(s)`: the (possibly signed) infinities and NaN, with the number
of bytes consumed. -/
def special (s : List Char) : Option (Float64 × Nat) :=
  match s with
  | [] => none
  | c :: rest =>
    if c = '+' ∨ c = '-' then specialInf (c == '-') 1 rest
    else if c = 'i' ∨ c = 'I' then specialInf false 0 s
    else if c = 'n' ∨ c = 'N' then
      if commonPrefixLenIgnoreCase s "nan".data = 3 then some (.nan, 3) else none
    else none

/-- The state of the mantissa loop of Go `readFloat`.  The mantissa is kept
exactly: Go keeps its first 19 digits (16 in base 16) and a flag for dropped
non-zero digits, and converts from the full digit string whenever the flag
matters, so that the result is the correctly rounded value of all digits. -/
structure Mantissa where
  mantissa : Nat
  nd : Nat
  dp : Int
  sawdot : Bool
  sawdigits : Bool
  underscores : Bool
  deriving Repr

/-- The mantissa loop of Go `readFloat`: returns the final state and the
unread rest of the input. -/
def readMantissa (hex : Bool) : List Char → Mantissa → Mantissa × List Char
  | [], st => (st, [])
  | c :: cs, st =>
    if c = '_' then readMantissa hex cs { st with underscores := true }
    else if c = '.' then
      if st.sawdot then (st, c :: cs)
      else readMantissa hex cs { st with sawdot := true, dp := st.nd }
    else if isDigit c then
      if c = '0' ∧ st.nd = 0 then
        readMantissa hex cs { st with sawdigits := true, dp := st.dp - 1 }
      else
        readMantissa hex cs { st with
          sawdigits := true, nd := st.nd + 1,
          mantissa := st.mantissa * (if hex then 16 else 10) + (c.toNat - 48) }
    else if hex ∧ 97 ≤ lower c ∧ lower c ≤ 102 then
      readMantissa hex cs { st with
        sawdigits := true, nd := st.nd + 1,
        mantissa := st.mantissa * 16 + (lower c - 97 + 10) }
    else (st, c :: cs)

/-- The exponent-digit loop of Go `readFloat`: the exponent stops growing once
it has reached `10000`. -/
def readExponent : List Char → Nat → Bool → Nat × Bool × List Char
  | [], e, u => (e, u, [])
  | c :: cs, e, u =>
    if c = '_' then readExponent cs e true
    else if isDigit c then readExponent cs (if e < 10000 then e * 10 + (c.toNat - 48) else e) u
    else (e, u, c :: cs)

/-- The number loop of Go `underscoreOK`; `saw` is the last character class
seen (`'0'` digit or base prefix, `'_'` underscore, `'!'` anything else,
`'^'` start). -/
def underscoreLoop (hex : Bool) : List Char → Char → Bool
  | [], saw => saw ≠ '_'
  | c :: cs, saw =>
    if isDigit c ∨ (hex ∧ 97 ≤ lower c ∧ lower c ≤ 102) then underscoreLoop hex cs '0'
    else if c = '_' then
      if saw ≠ '0' then false else underscoreLoop hex cs '_'
    else if saw = '_' then false
    else underscoreLoop hex cs '!'

/-- Go `underscoreOK(s)`: underscores only between digits, or between a base
prefix and a digit. -/
def underscoreOK (s : List Char) : Bool :=
  let s := match s with
    | c :: cs => if c = '-' ∨ c = '+' then cs else s
    | [] => s
  match s with
  | a :: b :: rest =>
    if a = '0' ∧ (lower b = 98 ∨ lower b = 111 ∨ lower b = 120) then
      underscoreLoop (lower b = 120) rest '0'
    else underscoreLoop false s '^'
  | _ => underscoreLoop false s '^'

/-- The test `i+2 < len(s) && s[i] == '0' && lower(s[i+1]) == 'x'` of Go
`readFloat`: the base prefix `0x` with at least one more byte after it. -/
def hasHexPrefix : List Char → Bool
  | a :: b :: _ :: _ => a = '0' ∧ lower b = 120
  | _ => false

/-- What Go `readFloat` returns on success: the value is
`(-1)^neg * mantissa * base^exp`, with base 2 when `hex` and 10 otherwise. -/
structure ReadFloat where
  mantissa : Nat
  exp : Int
  neg : Bool
  hex : Bool
  deriving Repr

/-- Go `readFloat(s)`: sign, optional `0x`, mantissa, optional exponent
(mandatory `p` exponent in base 16).  Returns the number read and the unread
rest of `s`, or `none` when `s` does not start with a number. -/
def readFloat (s : List Char) : Option (ReadFloat × List Char) :=
  match s with
  | [] => none
  | c0 :: tl =>
    let neg := c0 == '-'
    let s1 := if c0 = '+' ∨ c0 = '-' then tl else s
    let hex := hasHexPrefix s1
    let s2 := if hex then s1.drop 2 else s1
    let (m, s3) := readMantissa hex s2 ⟨0, 0, 0, false, false, false⟩
    if !m.sawdigits then none
    else
      let dp : Int := if m.sawdot then m.dp else m.nd
      let dp : Int := if hex then dp * 4 else dp
      let ndMant : Int := if hex then (m.nd : Int) * 4 else m.nd
      let expChar : Nat := if hex then 112 else 101
      let finish (dp : Int) (underscores : Bool) (rest : List Char) :
          Option (ReadFloat × List Char) :=
        if underscores ∧ !underscoreOK (s.take (s.length - rest.length)) then none
        else some (⟨m.mantissa, if m.mantissa ≠ 0 then dp - ndMant else 0, neg, hex⟩, rest)
      match s3 with
      | c :: s4 =>
        if lower c = expChar then
          match s4 with
          | [] => none
          | d :: s5 =>
            let esign : Int := if d = '-' then -1 else 1
            let s6 := if d = '+' ∨ d = '-' then s5 else s4
            match s6 with
            | [] => none
            | d1 :: _ =>
              if !isDigit d1 then none
              else
                let (e, u, rest) := readExponent s6 0 m.underscores
                finish (dp + (e : Int) * esign) u rest
        else if hex then none
        else finish dp m.underscores s3
      | [] => if hex then none else finish dp m.underscores s3

/-- Go `strconv.ParseFloat(s, 64)`: the binary64 nearest to the decimal or
hexadecimal number `s` (ties to even), the infinities and NaN by name;
`ErrSyntax` when `s` is not wholly a number, `ErrRange` when it is too
large for a finite binary64. -/
def ParseFloat (s : String) : Except NumError Float64 :=
  match special s.data with
  | some (f, n) => if n ≠ s.data.length then .error .ErrSyntax else .ok f
  | none =>
    match readFloat s.data with
    | none => .error .ErrSyntax
    | some (r, rest) =>
      if rest ≠ [] then .error .ErrSyntax
      else
        match Float64.ofScaled r.neg r.mantissa (if r.hex then 2 else 10) r.exp with
        | .inf _ => .error .ErrRange
        | f => .ok f

end strconv

/-! ## The composer manifest -/

/-- Modelled from the spec: the parsed `composer.json` (the Go type
`composerJSONSchema`, whose declaration is not part of the sources at hand).
`Name` is the project name; `Require` is the optional map from dependency
name to constraint string (`none` is the Go nil pointer), kept as a list of
key–value pairs with unique keys. -/
structure ComposerJSON where
  Name : String
  Require : Option (List (String × String))
  deriving DecidableEq, Repr

/-- Modelled from the spec: `GetRequire(name) -> (constraintString, found)`,
the lookup over the declared dependencies; nothing is found when the manifest
has no `require` section. -/
def ComposerJSON.GetRequire (c : ComposerJSON) (name : String) : String × Bool :=
  match c.Require with
  | none => ("", false)
  | some m =>
    match m.lookup name with
    | some v => (v, true)
    | none => ("", false)

/-- Modelled from the spec: the file source `afero.Fs` as the Manifest Accessor
sees it: it either holds a manifest that loads and parses, or holds none
(missing, unreadable or malformed — one "not available" condition). -/
structure Fs where
  composer : Option ComposerJSON
  deriving DecidableEq, Repr

/-- Modelled from the spec: `parseComposerJSON(source)`, the Manifest Accessor:
the parsed manifest, or an error when it is not available. -/
def parseComposerJSON (source : Fs) : Except Unit ComposerJSON :=
  match source.composer with
  | some c => .ok c
  | none => .error ()

/-! ## `internal/php/plan.go` -/

/-- The constant `DefaultPHPVersion`. -/
def DefaultPHPVersion : String := "8.1"

/-- The loop `for _, r := range ranges` of `GetPHPVersion`, followed by the
final `return DefaultPHPVersion`: `continue` is the recursive call on the
remaining atoms. -/
def GetPHPVersion.loop : List String → String
  | [] => DefaultPHPVersion
  | r :: ranges =>
    if strings.HasPrefix r ">=" then
      strings.TrimPrefix r ">="
    else if strings.HasPrefix r ">" then
      match strconv.ParseFloat (strings.TrimPrefix r ">") with
      | .error _ => GetPHPVersion.loop ranges
      | .ok value => fmt.Sprintf_f (Float64.add value Float64.oneTenth)
    else if strings.HasPrefix r "<=" then
      strings.TrimPrefix r "<="
    else if strings.HasPrefix r "<" then
      match strconv.ParseFloat (strings.TrimPrefix r "<=") with
      | .error _ => GetPHPVersion.loop ranges
      | .ok value => fmt.Sprintf_f (Float64.sub value Float64.oneTenth)
    else GetPHPVersion.loop ranges

/-- `GetPHPVersion`: the PHP version of the project. -/
def GetPHPVersion (source : Fs) : String :=
  match parseComposerJSON source with
  | .error _ => DefaultPHPVersion
  | .ok composerJSON =>
    let (versionRange, ok) := composerJSON.GetRequire "php"
    if !ok || versionRange == "" then DefaultPHPVersion
    else if regexp.MatchString versionRange then versionRange
    else GetPHPVersion.loop (strings.Split versionRange ' ')

/-- The Go type `types.PHPFramework`, with the four values used here. -/
inductive PHPFramework
  | PHPFrameworkNone
  | PHPFrameworkLaravel
  | PHPFrameworkThinkphp
  | PHPFrameworkCodeigniter
  deriving DecidableEq, Repr

open PHPFramework in
/-- `DetermineProjectFramework`: the framework of the project. -/
def DetermineProjectFramework (source : Fs) : PHPFramework :=
  match parseComposerJSON source with
  | .error _ => PHPFrameworkNone
  | .ok composerJSON =>
    if (composerJSON.GetRequire "laravel/framework").2 then PHPFrameworkLaravel
    else if (composerJSON.GetRequire "topthink/framework").2 then PHPFrameworkThinkphp
    else if (composerJSON.GetRequire "codeigniter4/framework").2 then PHPFrameworkCodeigniter
    else PHPFrameworkNone

/-- The table `depMap`: the apt packages an extension needs. -/
def depMap : List (String × List String) :=
  [ ("ext-openssl", ["libssl-dev"]),
    ("ext-zip", ["libzip-dev"]),
    ("ext-curl", ["libcurl4-openssl-dev", "libssl-dev"]),
    ("ext-gd", ["libpng-dev"]),
    ("ext-gmp", ["libgmp-dev"]) ]

/-- The list `baseDep`: the packages every project needs. -/
def baseDep : List String := ["libicu-dev", "jq", "pkg-config", "unzip", "git"]

/-- The loop `for dep := range *composerJSON.Require` of
`DetermineAptDependencies`, over the keys in the order in which the Go runtime
visits them. -/
def DetermineAptDependencies.loop : List String → List String → List String
  | [], dependencies => dependencies
  | dep :: keys, dependencies =>
    match depMap.lookup dep with
    | some val => DetermineAptDependencies.loop keys (dependencies ++ val)
    | none => DetermineAptDependencies.loop keys dependencies

/-- `DetermineAptDependencies`: the apt packages of the project.  A Go map has
no iteration order of its own: each `range` visits the keys in an order the
runtime picks, so that order is the extra argument `order`, which takes the
keys of the `require` map to one of their permutations. -/
def DetermineAptDependencies (source : Fs) (server : String)
    (order : List String → List String) : List String :=
  let dependencies := [] ++ baseDep
  let dependencies := if server ≠ "swoole" then dependencies ++ ["nginx"] else dependencies
  match parseComposerJSON source with
  | .error _ => dependencies
  | .ok composerJSON =>
    match composerJSON.Require with
    | none => dependencies
    | some require => DetermineAptDependencies.loop (order (require.map Prod.fst)) dependencies

/-- The Go type `types.PHPApplication`, with the two values used here. -/
inductive PHPApplication
  | PHPApplicationDefault
  | PHPApplicationAcgFaka
  deriving DecidableEq, Repr

/-- The Go type `types.PHPProperty`, with the two values used here. -/
inductive PHPProperty
  | PHPPropertyNone
  | PHPPropertyComposer
  deriving DecidableEq, Repr

open PHPApplication PHPProperty in
/-- `DetermineApplication`: the application the project is, and the property
that told so. -/
def DetermineApplication (source : Fs) : PHPApplication × PHPProperty :=
  match parseComposerJSON source with
  | .error _ => (PHPApplicationDefault, PHPPropertyNone)
  | .ok composerJSON =>
    if composerJSON.Name = "lizhipay/acg-faka" then (PHPApplicationAcgFaka, PHPPropertyComposer)
    else (PHPApplicationDefault, PHPPropertyComposer)

/-! ## Vocabulary of the specification -/

/-- The manifest of `source` loads and declares the constraint `v` for the
dependency `"php"`. -/
def HasPHPConstraint (source : Fs) (v : String) : Prop :=
  ∃ c m, source.composer = some c ∧ c.Require = some m ∧ m.lookup "php" = some v

/-- A source whose manifest declares exactly the `"php"` constraint `v`. -/
def phpSource (v : String) : Fs :=
  ⟨some ⟨"", some [("php", v)]⟩⟩

/-- A non-empty run of decimal digits. -/
def isDigitRun (r : List Char) : Bool :=
  !r.isEmpty && r.all Char.isDigit

/-- A bare version: one to three dot-separated non-empty runs of decimal
digits. -/
def isBareVersion (s : String) : Bool :=
  let runs := strings.splitChars '.' s.data
  decide (1 ≤ runs.length) && decide (runs.length ≤ 3) && runs.all isDigitRun

/-- A fixed-point decimal: a non-empty run of digits, a dot, and exactly six
digits. -/
def isFixedPointChars (s : List Char) : Bool :=
  match strings.splitChars '.' s with
  | [a, b] => isDigitRun a && decide (b.length = 6) && b.all Char.isDigit
  | _ => false

/-- A fixed-point decimal with six fractional digits. -/
def isFixedPoint (s : String) : Bool :=
  isFixedPointChars s.data

/-- A fixed-point decimal with six fractional digits, possibly after a minus
sign. -/
def isSignedFixedPoint (s : String) : Bool :=
  isFixedPointChars s.data ||
    match s.data with
    | '-' :: r => isFixedPointChars r
    | _ => false

/-- The value of a string of decimal digits. -/
def decValue (ds : List Char) : Nat :=
  ds.foldl (fun acc c => acc * 10 + (c.toNat - 48)) 0

/-- The decimal number `k / 10 + 0.1`, for `k` a number of tenths, printed with
six fractional digits: the integer part, a dot, the tenths digit and five
zeros. -/
def decimalPlusTenth (k : Nat) : String :=
  String.mk (Nat.toDigits 10 ((k + 1) / 10) ++
    [ '.', Nat.digitChar ((k + 1) % 10), '0', '0', '0', '0', '0' ])

/-- The manifest `c` declares the dependency `k`: `k` is a key of its `require`
map. -/
def Declares (c : ComposerJSON) (k : String) : Prop :=
  ∃ m, c.Require = some m ∧ k ∈ m.map Prod.fst

/-- The packages that come before the table-derived ones: the base list, then
`"nginx"` unless the server is `"swoole"`. -/
def basePrefix (server : String) : List String :=
  baseDep ++ (if server = "swoole" then [] else ["nginx"])

/-- The keys among `keys` that are keys of `depMap`, in the order of `keys`. -/
def matchedKeys (keys : List String) : List String :=
  keys.filter (fun dep => decide (dep ∈ depMap.map Prod.fst))

/-- The concatenation, in the order of `keys`, of the `depMap` entries of the
keys that are in `depMap`. -/
def tableSegment (keys : List String) : List String :=
  (matchedKeys keys).flatMap (fun dep => (depMap.lookup dep).getD [])

/-- The eleven package names the code can name: the five base packages,
`"nginx"`, and the values of `depMap`. -/
def fixedPackages : List String :=
  ["libicu-dev", "jq", "pkg-config", "unzip", "git", "nginx",
    "libssl-dev", "libzip-dev", "libcurl4-openssl-dev", "libpng-dev", "libgmp-dev"]

/-! ## Helper lemmas: the manifest -/

theorem lookup_ne_none_iff_mem_keys (m : List (String × String)) (k : String) :
    m.lookup k ≠ none ↔ k ∈ m.map Prod.fst := by
  induction m with
  | nil => simp
  | cons p m ih =>
    obtain ⟨a, b⟩ := p
    by_cases hk : k = a
    · subst hk
      simp [List.lookup]
    · have hk2 : (k == a) = false := by simpa using hk
      simp only [List.lookup, hk2, List.map_cons, List.mem_cons, hk, false_or]
      exact ih

theorem getPHPVersion_of_constraint (source : Fs) (v : String)
    (h : HasPHPConstraint source v) :
    GetPHPVersion source =
      if v = "" then DefaultPHPVersion
      else if regexp.MatchString v then v
      else GetPHPVersion.loop (strings.Split v ' ') := by
  obtain ⟨c, m, hc, hm, hv⟩ := h
  simp only [GetPHPVersion, parseComposerJSON, hc, ComposerJSON.GetRequire, hm, hv]
  by_cases h0 : v = ""
  · simp [h0]
  · simp [h0]

theorem hasPHPConstraint_phpSource (v : String) : HasPHPConstraint (phpSource v) v :=
  ⟨_, _, rfl, rfl, by simp [List.lookup]⟩

/-! ## Helper lemmas: characters and digit runs -/

theorem char_isDigit_iff_toNat (c : Char) : c.isDigit = true ↔ 48 ≤ c.toNat ∧ c.toNat ≤ 57 := by
  simp only [Char.isDigit, Bool.and_eq_true, decide_eq_true_eq, Char.toNat, UInt32.le_def,
    ge_iff_le]
  constructor
  · rintro ⟨h1, h2⟩
    exact ⟨h1, h2⟩
  · rintro ⟨h1, h2⟩
    exact ⟨h1, h2⟩

theorem char_isDigit_cases (c : Char) (h : c.isDigit = true) :
    c = '0' ∨ c = '1' ∨ c = '2' ∨ c = '3' ∨ c = '4' ∨
      c = '5' ∨ c = '6' ∨ c = '7' ∨ c = '8' ∨ c = '9' := by
  obtain ⟨h1, h2⟩ := (char_isDigit_iff_toNat c).1 h
  have hc : Char.ofNat c.toNat = c := Char.ofNat_toNat c
  generalize c.toNat = n at h1 h2 hc
  interval_cases n <;> subst hc <;> decide

theorem digit_rmatch_iff (x : List Char) :
    regexp.digit.rmatch x = true ↔ ∃ c, x = [c] ∧ c.isDigit = true := by
  simp only [regexp.digit, RegularExpression.add_rmatch_iff, RegularExpression.char_rmatch_iff]
  constructor
  · intro h
    rcases h with ((((((((h | h) | h) | h) | h) | h) | h) | h) | h) | h <;>
      exact ⟨_, h, by decide⟩
  · rintro ⟨c, rfl, hc⟩
    rcases char_isDigit_cases c hc with h | h | h | h | h | h | h | h | h | h <;> simp [h]

theorem isDigitRun_iff (r : List Char) :
    isDigitRun r = true ↔ r ≠ [] ∧ ∀ c ∈ r, c.isDigit = true := by
  cases r <;> simp [isDigitRun]

theorem digits_rmatch_iff (x : List Char) :
    (regexp.digit * RegularExpression.star regexp.digit).rmatch x = true ↔
      isDigitRun x = true := by
  rw [RegularExpression.mul_rmatch_iff, isDigitRun_iff]
  constructor
  · rintro ⟨t, u, rfl, ht, hu⟩
    obtain ⟨c, rfl, hc⟩ := (digit_rmatch_iff t).1 ht
    obtain ⟨S, rfl, hS⟩ := (RegularExpression.star_rmatch_iff _ u).1 hu
    refine ⟨by simp, ?_⟩
    intro d hd
    simp only [List.singleton_append, List.mem_cons, List.mem_flatten] at hd
    rcases hd with rfl | ⟨l, hl, hdl⟩
    · exact hc
    · obtain ⟨e, rfl, he⟩ := (digit_rmatch_iff l).1 (hS l hl).2
      simp only [List.mem_singleton] at hdl
      exact hdl ▸ he
  · rintro ⟨hne, hall⟩
    cases x with
    | nil => exact absurd rfl hne
    | cons c u =>
      refine ⟨[c], u, rfl, (digit_rmatch_iff _).2 ⟨c, rfl, hall c (by simp)⟩, ?_⟩
      rw [RegularExpression.star_rmatch_iff]
      refine ⟨u.map (fun d => [d]), ?_, ?_⟩
      · clear hall hne
        induction u with
        | nil => rfl
        | cons d u ih => simpa using ih
      · intro t ht
        simp only [List.mem_map] at ht
        obtain ⟨d, hd, rfl⟩ := ht
        exact ⟨by simp, (digit_rmatch_iff _).2 ⟨d, rfl, hall d (by simp [hd])⟩⟩

theorem versionPattern_rmatch_iff (x : List Char) :
    regexp.versionPattern.rmatch x = true ↔
      ∃ a, isDigitRun a = true ∧
        (x = a ∨ ∃ b, isDigitRun b = true ∧
          (x = a ++ '.' :: b ∨ ∃ c, isDigitRun c = true ∧ x = a ++ '.' :: b ++ '.' :: c)) := by
  have hg : ∀ y, (RegularExpression.char '.' *
      (regexp.digit * RegularExpression.star regexp.digit)).rmatch y = true ↔
      ∃ b, isDigitRun b = true ∧ y = '.' :: b := by
    intro y
    rw [RegularExpression.mul_rmatch_iff]
    constructor
    · rintro ⟨t, u, rfl, ht, hu⟩
      rw [RegularExpression.char_rmatch_iff] at ht
      subst ht
      exact ⟨u, (digits_rmatch_iff u).1 hu, rfl⟩
    · rintro ⟨b, hb, rfl⟩
      exact ⟨['.'], b, rfl, (RegularExpression.char_rmatch_iff _ _).2 rfl,
        (digits_rmatch_iff b).2 hb⟩
  simp only [regexp.versionPattern]
  rw [RegularExpression.mul_rmatch_iff]
  constructor
  · rintro ⟨a, y, rfl, ha, hy⟩
    refine ⟨a, (digits_rmatch_iff a).1 ha, ?_⟩
    rw [RegularExpression.add_rmatch_iff, RegularExpression.one_rmatch_iff] at hy
    rcases hy with rfl | hy
    · left; simp
    · right
      rw [RegularExpression.mul_rmatch_iff] at hy
      obtain ⟨t, u, rfl, ht, hu⟩ := hy
      obtain ⟨b, hb, rfl⟩ := (hg t).1 ht
      refine ⟨b, hb, ?_⟩
      rw [RegularExpression.add_rmatch_iff, RegularExpression.one_rmatch_iff] at hu
      rcases hu with rfl | hu
      · left; simp
      · right
        obtain ⟨c, hc, rfl⟩ := (hg u).1 hu
        exact ⟨c, hc, by simp⟩
  · rintro ⟨a, ha, h⟩
    rcases h with rfl | ⟨b, hb, rfl | ⟨c, hc, rfl⟩⟩
    · refine ⟨x, [], by simp, (digits_rmatch_iff x).2 ha, ?_⟩
      rw [RegularExpression.add_rmatch_iff, RegularExpression.one_rmatch_iff]
      left; rfl
    · refine ⟨a, '.' :: b, rfl, (digits_rmatch_iff a).2 ha, ?_⟩
      rw [RegularExpression.add_rmatch_iff]
      right
      rw [RegularExpression.mul_rmatch_iff]
      refine ⟨'.' :: b, [], by simp, (hg _).2 ⟨b, hb, rfl⟩, ?_⟩
      rw [RegularExpression.add_rmatch_iff, RegularExpression.one_rmatch_iff]
      left; rfl
    · refine ⟨a, '.' :: b ++ '.' :: c, by simp, (digits_rmatch_iff a).2 ha, ?_⟩
      rw [RegularExpression.add_rmatch_iff]
      right
      rw [RegularExpression.mul_rmatch_iff]
      refine ⟨'.' :: b, '.' :: c, rfl, (hg _).2 ⟨b, hb, rfl⟩, ?_⟩
      rw [RegularExpression.add_rmatch_iff]
      right
      exact (hg _).2 ⟨c, hc, rfl⟩

/-! ## Helper lemmas: splitting -/

theorem splitChars_ne_nil (sep : Char) (x : List Char) : strings.splitChars sep x ≠ [] := by
  cases x with
  | nil => simp [strings.splitChars]
  | cons c cs =>
    simp only [strings.splitChars]
    split_ifs
    · simp
    · split <;> simp

theorem splitChars_of_not_mem (sep : Char) (a : List Char) (h : sep ∉ a) :
    strings.splitChars sep a = [a] := by
  induction a with
  | nil => rfl
  | cons c cs ih =>
    simp only [List.mem_cons, not_or] at h
    have hc : ¬ c = sep := fun e => h.1 e.symm
    simp [strings.splitChars, hc, ih h.2]

theorem splitChars_append_sep (sep : Char) (a rest : List Char) (h : sep ∉ a) :
    strings.splitChars sep (a ++ sep :: rest) = a :: strings.splitChars sep rest := by
  induction a with
  | nil => simp [strings.splitChars]
  | cons c cs ih =>
    simp only [List.mem_cons, not_or] at h
    have hc : ¬ c = sep := fun e => h.1 e.symm
    simp [strings.splitChars, hc, ih h.2]

theorem splitChars_cons_inv (sep : Char) (x a : List Char) (rest : List (List Char))
    (h : strings.splitChars sep x = a :: rest) :
    sep ∉ a ∧ ((rest = [] ∧ x = a) ∨
      (∃ y, x = a ++ sep :: y ∧ strings.splitChars sep y = rest)) := by
  induction x generalizing a rest with
  | nil =>
    simp only [strings.splitChars, List.cons.injEq] at h
    obtain ⟨rfl, rfl⟩ := h
    simp
  | cons c cs ih =>
    simp only [strings.splitChars] at h
    by_cases hc : c = sep
    · simp only [hc, if_true, List.cons.injEq] at h
      obtain ⟨rfl, rfl⟩ := h
      exact ⟨by simp, Or.inr ⟨cs, by simp [hc], rfl⟩⟩
    · simp only [hc, if_false] at h
      cases hs : strings.splitChars sep cs with
      | nil => exact absurd hs (splitChars_ne_nil sep cs)
      | cons p ps =>
        rw [hs] at h
        simp only [List.cons.injEq] at h
        obtain ⟨rfl, rfl⟩ := h
        obtain ⟨hp, hrest⟩ := ih p ps hs
        refine ⟨by simp [hp, Ne.symm hc], ?_⟩
        rcases hrest with ⟨rfl, rfl⟩ | ⟨y, rfl, hy⟩
        · left; simp
        · right; exact ⟨y, by simp, hy⟩

theorem not_mem_of_isDigitRun (a : List Char) (c : Char) (hc : c.isDigit = false)
    (h : isDigitRun a = true) : c ∉ a := by
  intro hmem
  have := ((isDigitRun_iff a).1 h).2 c hmem
  rw [hc] at this
  exact Bool.noConfusion this

theorem matchString_iff_isBareVersion (s : String) :
    regexp.MatchString s = true ↔ isBareVersion s = true := by
  unfold regexp.MatchString
  rw [versionPattern_rmatch_iff]
  have hdot : ∀ a, isDigitRun a = true → '.' ∉ a :=
    fun a => not_mem_of_isDigitRun a '.' (by decide)
  constructor
  · rintro ⟨a, ha, h⟩
    rcases h with h | ⟨b, hb, h | ⟨c, hc, h⟩⟩
    · simp [isBareVersion, h, splitChars_of_not_mem _ _ (hdot a ha), ha]
    · simp [isBareVersion, h, splitChars_append_sep _ _ _ (hdot a ha),
        splitChars_of_not_mem _ _ (hdot b hb), ha, hb]
    · have : s.data = a ++ '.' :: (b ++ '.' :: c) := by simp [h]
      simp [isBareVersion, this, splitChars_append_sep _ _ _ (hdot a ha),
        splitChars_append_sep _ _ _ (hdot b hb), splitChars_of_not_mem _ _ (hdot c hc),
        ha, hb, hc]
  · intro h
    simp only [isBareVersion, Bool.and_eq_true, decide_eq_true_eq, List.all_eq_true] at h
    obtain ⟨⟨h1, h3⟩, hall⟩ := h
    cases hs : strings.splitChars '.' s.data with
    | nil => exact absurd hs (splitChars_ne_nil _ _)
    | cons a r1 =>
      rw [hs] at h3 hall
      have ha := hall a (by simp)
      refine ⟨a, ha, ?_⟩
      rcases (splitChars_cons_inv _ _ _ _ hs).2 with ⟨-, hx⟩ | ⟨y, hx, hy⟩
      · exact Or.inl hx
      · right
        cases r1 with
        | nil => exact absurd hy (splitChars_ne_nil _ _)
        | cons b r2 =>
          have hb := hall b (by simp)
          refine ⟨b, hb, ?_⟩
          rcases (splitChars_cons_inv _ _ _ _ hy).2 with ⟨-, hy1⟩ | ⟨z, hy1, hz⟩
          · left; rw [hx, hy1]
          · right
            cases r2 with
            | nil => exact absurd hz (splitChars_ne_nil _ _)
            | cons c r3 =>
              have hc := hall c (by simp)
              refine ⟨c, hc, ?_⟩
              rcases (splitChars_cons_inv _ _ _ _ hz).2 with ⟨-, hz1⟩ | ⟨w, -, hw⟩
              · rw [hx, hy1, hz1]; simp
              · cases r3 with
                | nil => exact absurd hw (splitChars_ne_nil _ _)
                | cons d r4 => simp at h3

/-! ## Helper lemmas: prefixes and the loop -/

theorem matchString_head_isDigit (s : String) (h : regexp.MatchString s = true) :
    ∃ c cs, s.data = c :: cs ∧ c.isDigit = true := by
  unfold regexp.MatchString at h
  obtain ⟨a, ha, hx⟩ := (versionPattern_rmatch_iff _).1 h
  obtain ⟨hne, hall⟩ := (isDigitRun_iff a).1 ha
  cases a with
  | nil => exact absurd rfl hne
  | cons c cs =>
    have hc := hall c (by simp)
    rcases hx with hx | ⟨b, -, hx | ⟨d, -, hx⟩⟩
    · exact ⟨c, _, hx, hc⟩
    · exact ⟨c, _, hx, hc⟩
    · exact ⟨c, _, hx, hc⟩

theorem matchString_false_of_head (s : String) (c : Char) (cs : List Char)
    (hs : s.data = c :: cs) (hc : c.isDigit = false) : regexp.MatchString s = false := by
  cases h : regexp.MatchString s with
  | false => rfl
  | true =>
    obtain ⟨d, ds, hd, hdig⟩ := matchString_head_isDigit s h
    rw [hs] at hd
    simp only [List.cons.injEq] at hd
    rw [← hd.1, hc] at hdig
    exact Bool.noConfusion hdig

theorem split_space_first (a tail : String) (ha : ' ' ∉ a.data)
    (htail : tail = "" ∨ ∃ t : String, tail = " " ++ t) :
    ∃ rest, strings.Split (a ++ tail) ' ' = a :: rest := by
  rcases htail with rfl | ⟨t, rfl⟩
  · refine ⟨[], ?_⟩
    simp [strings.Split, splitChars_of_not_mem _ _ ha]
  · refine ⟨(strings.splitChars ' ' t.data).map String.mk, ?_⟩
    have : (a ++ (" " ++ t)).data = a.data ++ ' ' :: t.data := by
      simp [String.data_append]
    simp [strings.Split, this, splitChars_append_sep _ _ _ ha]

theorem hasPrefix_append (p s : String) : strings.HasPrefix (p ++ s) p = true := by
  simp [strings.HasPrefix, String.data_append, List.isPrefixOf_iff_prefix]

theorem trimPrefix_append (p s : String) : strings.TrimPrefix (p ++ s) p = s := by
  simp [strings.TrimPrefix, hasPrefix_append, String.data_append]

theorem hasPrefix_head (s p : String) (c : Char) (cs : List Char) (hp : p.data = c :: cs)
    (h : strings.HasPrefix s p = true) : s.data.head? = some c := by
  simp only [strings.HasPrefix, hp] at h
  cases hs : s.data with
  | nil => simp [hs, List.isPrefixOf] at h
  | cons d ds =>
    simp only [hs, List.isPrefixOf, Bool.and_eq_true, beq_iff_eq] at h
    simp [h.1]

theorem loop_default_of_no_bounds (atoms : List String)
    (h : ∀ atom ∈ atoms, atom.data.head? ≠ some '>' ∧ atom.data.head? ≠ some '<') :
    GetPHPVersion.loop atoms = DefaultPHPVersion := by
  induction atoms with
  | nil => rfl
  | cons r rest ih =>
    obtain ⟨h1, h2⟩ := h r (by simp)
    have e1 : strings.HasPrefix r ">=" = false := by
      cases hh : strings.HasPrefix r ">=" with
      | false => rfl
      | true => exact absurd (hasPrefix_head r ">=" '>' ['='] rfl hh) h1
    have e2 : strings.HasPrefix r ">" = false := by
      cases hh : strings.HasPrefix r ">" with
      | false => rfl
      | true => exact absurd (hasPrefix_head r ">" '>' [] rfl hh) h1
    have e3 : strings.HasPrefix r "<=" = false := by
      cases hh : strings.HasPrefix r "<=" with
      | false => rfl
      | true => exact absurd (hasPrefix_head r "<=" '<' ['='] rfl hh) h2
    have e4 : strings.HasPrefix r "<" = false := by
      cases hh : strings.HasPrefix r "<" with
      | false => rfl
      | true => exact absurd (hasPrefix_head r "<" '<' [] rfl hh) h2
    simp only [GetPHPVersion.loop, e1, e2, e3, e4, Bool.false_eq_true, if_false]
    exact ih (fun atom ha => h atom (by simp [ha]))

/-! ## Helper lemmas: `ParseFloat` on text that is no number -/

theorem readFloat_lt (cs : List Char) : strconv.readFloat ('<' :: cs) = none := by
  have hm : ∀ st, strconv.readMantissa false ('<' :: cs) st = (st, '<' :: cs) := by
    intro st
    simp [strconv.readMantissa, strconv.isDigit]
  rcases cs with _ | ⟨b, _ | ⟨c, cs⟩⟩ <;>
    simp [strconv.readFloat, strconv.hasHexPrefix, hm]

theorem parseFloat_lt (s : String) (cs : List Char) (hs : s.data = '<' :: cs) :
    strconv.ParseFloat s = .error .ErrSyntax := by
  simp [strconv.ParseFloat, hs, strconv.special, readFloat_lt]

/-! ## Helper lemmas: the shape of printed floats -/

theorem digitChar_isDigit (n : Nat) : (Nat.digitChar (n % 10)).isDigit = true := by
  have h : n % 10 < 10 := Nat.mod_lt _ (by decide)
  generalize n % 10 = k at h
  interval_cases k <;> decide

theorem toDigitsCore_digits (fuel : Nat) : ∀ (n : Nat) (ds : List Char),
    (∀ c ∈ ds, c.isDigit = true) → (ds ≠ [] ∨ 0 < fuel) →
    Nat.toDigitsCore 10 fuel n ds ≠ [] ∧ ∀ c ∈ Nat.toDigitsCore 10 fuel n ds, c.isDigit = true := by
  induction fuel with
  | zero =>
    intro n ds hds hne
    rcases hne with hne | hne
    · exact ⟨by simpa [Nat.toDigitsCore] using hne, by simpa [Nat.toDigitsCore] using hds⟩
    · exact absurd hne (by decide)
  | succ fuel ih =>
    intro n ds hds _
    have hcons : ∀ c ∈ Nat.digitChar (n % 10) :: ds, c.isDigit = true := by
      intro c hc
      rcases List.mem_cons.1 hc with rfl | hc
      · exact digitChar_isDigit n
      · exact hds c hc
    simp only [Nat.toDigitsCore]
    split_ifs
    · exact ⟨by simp, hcons⟩
    · exact ih _ _ hcons (Or.inl (by simp))

theorem toDigits_isDigitRun (n : Nat) : isDigitRun (Nat.toDigits 10 n) = true := by
  rw [isDigitRun_iff]
  exact toDigitsCore_digits (n + 1) n [] (by simp) (Or.inr (Nat.succ_pos n))

theorem padDigits_length (k n : Nat) : (Float64.padDigits k n).length = k := by
  induction k generalizing n with
  | zero => rfl
  | succ k ih => simp [Float64.padDigits, ih]

theorem padDigits_digits (k n : Nat) : ∀ c ∈ Float64.padDigits k n, c.isDigit = true := by
  induction k generalizing n with
  | zero => simp [Float64.padDigits]
  | succ k ih =>
    intro c hc
    simp only [Float64.padDigits, List.mem_append, List.mem_singleton] at hc
    rcases hc with hc | rfl
    · exact ih _ c hc
    · exact digitChar_isDigit n

theorem isFixedPointChars_digits (a b : List Char) (ha : isDigitRun a = true)
    (hb : b.length = 6) (hbd : ∀ c ∈ b, c.isDigit = true) :
    isFixedPointChars (a ++ '.' :: b) = true := by
  have h1 : '.' ∉ a := not_mem_of_isDigitRun a '.' (by decide) ha
  have h2 : '.' ∉ b := fun hm => absurd (hbd _ hm) (by decide)
  simp only [isFixedPointChars, splitChars_append_sep _ _ _ h1, splitChars_of_not_mem _ _ h2]
  simp [ha, hb]
  exact hbd

theorem sprintf_shape (f : Float64) :
    isSignedFixedPoint (fmt.Sprintf_f f) = true ∨
      fmt.Sprintf_f f = "+Inf" ∨ fmt.Sprintf_f f = "-Inf" ∨ fmt.Sprintf_f f = "NaN" := by
  cases f with
  | nan => right; right; right; rfl
  | inf neg => cases neg <;> simp [fmt.Sprintf_f]
  | fin neg m e =>
    left
    simp only [fmt.Sprintf_f, isSignedFixedPoint]
    cases neg
    · simp only [Bool.false_eq_true, if_false, List.nil_append, List.append_assoc,
        List.singleton_append, Bool.or_eq_true]
      left
      exact isFixedPointChars_digits _ _ (toDigits_isDigitRun _) (padDigits_length _ _)
        (padDigits_digits _ _)
    · simp only [if_true, List.append_assoc, List.singleton_append, List.cons_append,
        List.nil_append, Bool.or_eq_true]
      right
      exact isFixedPointChars_digits _ _ (toDigits_isDigitRun _) (padDigits_length _ _)
        (padDigits_digits _ _)

theorem hasPrefix_eq_append (s p : String) (h : strings.HasPrefix s p = true) :
    s = p ++ strings.TrimPrefix s p := by
  simp only [strings.TrimPrefix, h, if_true]
  simp only [strings.HasPrefix, List.isPrefixOf_iff_prefix] at h
  obtain ⟨t, ht⟩ := h
  apply String.ext
  simp [String.data_append, ← ht]

theorem loop_shape (atoms : List String) :
    GetPHPVersion.loop atoms = DefaultPHPVersion ∨
      (∃ atom ∈ atoms, atom = ">=" ++ GetPHPVersion.loop atoms ∨
        atom = "<=" ++ GetPHPVersion.loop atoms) ∨
      isSignedFixedPoint (GetPHPVersion.loop atoms) = true ∨
      GetPHPVersion.loop atoms = "+Inf" ∨ GetPHPVersion.loop atoms = "-Inf" ∨
      GetPHPVersion.loop atoms = "NaN" := by
  induction atoms with
  | nil => left; rfl
  | cons r rest ih =>
    have hrec : GetPHPVersion.loop rest = DefaultPHPVersion ∨
        (∃ atom ∈ r :: rest, atom = ">=" ++ GetPHPVersion.loop rest ∨
          atom = "<=" ++ GetPHPVersion.loop rest) ∨
        isSignedFixedPoint (GetPHPVersion.loop rest) = true ∨
        GetPHPVersion.loop rest = "+Inf" ∨ GetPHPVersion.loop rest = "-Inf" ∨
        GetPHPVersion.loop rest = "NaN" := by
      rcases ih with h | ⟨atom, hmem, h⟩ | h
      · exact Or.inl h
      · exact Or.inr (Or.inl ⟨atom, List.mem_cons_of_mem _ hmem, h⟩)
      · exact Or.inr (Or.inr h)
    rw [GetPHPVersion.loop]
    by_cases h1 : strings.HasPrefix r ">=" = true
    · simp only [h1, if_true]
      exact Or.inr (Or.inl ⟨r, by simp, Or.inl (hasPrefix_eq_append r ">=" h1)⟩)
    · simp only [h1, if_false]
      by_cases h2 : strings.HasPrefix r ">" = true
      · simp only [h2, if_true]
        cases strconv.ParseFloat (strings.TrimPrefix r ">") with
        | error e => exact hrec
        | ok value => exact Or.inr (Or.inr (sprintf_shape _))
      · simp only [h2, if_false]
        by_cases h3 : strings.HasPrefix r "<=" = true
        · simp only [h3, if_true]
          exact Or.inr (Or.inl ⟨r, by simp, Or.inr (hasPrefix_eq_append r "<=" h3)⟩)
        · simp only [h3, if_false]
          by_cases h4 : strings.HasPrefix r "<" = true
          · simp only [h4, if_true]
            cases strconv.ParseFloat (strings.TrimPrefix r "<=") with
            | error e => exact hrec
            | ok value => exact Or.inr (Or.inr (sprintf_shape _))
          · simp only [h4, if_false]
            exact hrec

/-! ## Helper lemmas: rounding -/

theorem log2Fuel_spec (fuel : Nat) : ∀ n, n ≤ fuel → 0 < n →
    2 ^ Float64.log2Fuel fuel n ≤ n ∧ n < 2 ^ (Float64.log2Fuel fuel n + 1) := by
  induction fuel with
  | zero => intro n h1 h2; omega
  | succ fuel ih =>
    intro n h1 h2
    simp only [Float64.log2Fuel]
    split_ifs with h
    · simp; omega
    · obtain ⟨ha, hb⟩ := ih (n / 2) (by omega) (by omega)
      rw [pow_succ, pow_succ]
      rw [pow_succ] at hb
      constructor <;> omega

theorem log2_spec (n : Nat) (h : 0 < n) :
    2 ^ Float64.log2 n ≤ n ∧ n < 2 ^ (Float64.log2 n + 1) :=
  log2Fuel_spec n n le_rfl h

theorem shiftFrac_spec (num den : Nat) (e : Int) (hden : 0 < den) :
    0 < (Float64.shiftFrac num den e).2 ∧
      ((Float64.shiftFrac num den e).1 : ℚ) / (Float64.shiftFrac num den e).2 =
        (num : ℚ) / den / (2 : ℚ) ^ e := by
  have hd : (den : ℚ) ≠ 0 := by exact_mod_cast hden.ne'
  cases e with
  | ofNat k =>
    simp only [Float64.shiftFrac]
    refine ⟨by positivity, ?_⟩
    push_cast
    rw [Int.ofNat_eq_coe, zpow_natCast]
    field_simp
  | negSucc k =>
    simp only [Float64.shiftFrac]
    refine ⟨hden, ?_⟩
    push_cast
    rw [Int.negSucc_eq, zpow_neg]
    have : ((k : ℤ) + 1) = ((k + 1 : ℕ) : ℤ) := by push_cast; ring
    rw [this, zpow_natCast]
    field_simp

theorem roundHalfEven_spec (num den : Nat) (hden : 0 < den) :
    |(Float64.roundHalfEven num den : ℚ) - (num : ℚ) / den| ≤ 1 / 2 := by
  have hd : (0 : ℚ) < den := by exact_mod_cast hden
  have hdiv : (num : ℚ) / den = (num / den : ℕ) + ((num % den : ℕ) : ℚ) / den := by
    have := Nat.div_add_mod num den
    have h2 : (num : ℚ) = (den : ℚ) * (num / den : ℕ) + (num % den : ℕ) := by exact_mod_cast this.symm
    field_simp
    linarith
  have hr : ((num % den : ℕ) : ℚ) < den := by exact_mod_cast Nat.mod_lt num hden
  have hr0 : (0 : ℚ) ≤ ((num % den : ℕ) : ℚ) := by positivity
  set q := num / den with hq
  set r := num % den with hrdef
  have hfrac : ((r : ℚ) / den) * den = r := by field_simp
  simp only [Float64.roundHalfEven, ← hq, ← hrdef]
  rw [hdiv]
  split_ifs with h1 h2 h3
  · have : (2 : ℚ) * r < den := by exact_mod_cast h1
    rw [abs_le]
    constructor
    · have : (r : ℚ) / den ≤ 1 / 2 := by rw [div_le_iff₀ hd]; linarith
      linarith
    · have : (0 : ℚ) ≤ (r : ℚ) / den := by positivity
      linarith
  · have : (den : ℚ) < 2 * r := by exact_mod_cast h2
    rw [abs_le]
    push_cast
    constructor
    · have : (r : ℚ) / den ≤ 1 := by rw [div_le_iff₀ hd]; linarith
      linarith
    · have : (1 : ℚ) / 2 ≤ (r : ℚ) / den := by rw [le_div_iff₀ hd]; linarith
      linarith
  · have : (2 : ℚ) * r = den := by
      have : 2 * r = den := by omega
      exact_mod_cast this
    have : (r : ℚ) / den = 1 / 2 := by rw [div_eq_iff hd.ne']; linarith
    rw [this, abs_le]
    constructor <;> linarith
  · have : (2 : ℚ) * r = den := by
      have : 2 * r = den := by omega
      exact_mod_cast this
    have : (r : ℚ) / den = 1 / 2 := by rw [div_eq_iff hd.ne']; linarith
    rw [this, abs_le]
    push_cast
    constructor <;> linarith

theorem roundHalfEven_eq (num den t : Nat) (hden : 0 < den)
    (h : |(num : ℚ) / den - t| < 1 / 2) : Float64.roundHalfEven num den = t := by
  have h1 := roundHalfEven_spec num den hden
  have h2 : |(Float64.roundHalfEven num den : ℚ) - t| < 1 := by
    calc |(Float64.roundHalfEven num den : ℚ) - t|
        = |((Float64.roundHalfEven num den : ℚ) - (num : ℚ) / den) + ((num : ℚ) / den - t)| := by
          ring_nf
      _ ≤ |(Float64.roundHalfEven num den : ℚ) - (num : ℚ) / den| + |(num : ℚ) / den - t| :=
          abs_add _ _
      _ < 1 := by linarith
  have h3 : |((Float64.roundHalfEven num den : ℤ) - (t : ℤ))| < 1 := by
    have : (((|((Float64.roundHalfEven num den : ℤ) - (t : ℤ))| : ℤ)) : ℚ) < 1 := by
      push_cast
      exact h2
    exact_mod_cast this
  have h4 : ((Float64.roundHalfEven num den : ℤ) - (t : ℤ)) = 0 := by
    rw [abs_lt] at h3
    omega
  omega

theorem floorLog2_le (num den : Nat) (hnum : 0 < num) (hden : 0 < den) :
    (2 : ℚ) ^ Float64.floorLog2 num den ≤ (num : ℚ) / den := by
  have hd : (0 : ℚ) < den := by exact_mod_cast hden
  have h2 : (0 : ℚ) < 2 := by norm_num
  simp only [Float64.floorLog2]
  obtain ⟨hp, hq⟩ := shiftFrac_spec num den ((Float64.log2 num : ℤ) - Float64.log2 den) hden
  split_ifs with h
  · have hp2 : (0 : ℚ) < ((Float64.shiftFrac num den
        ((Float64.log2 num : ℤ) - Float64.log2 den)).2 : ℚ) := by exact_mod_cast hp
    have h1 : (1 : ℚ) ≤ ((Float64.shiftFrac num den ((Float64.log2 num : ℤ) - Float64.log2 den)).1 : ℚ) /
        (Float64.shiftFrac num den ((Float64.log2 num : ℤ) - Float64.log2 den)).2 := by
      rw [le_div_iff₀ hp2, one_mul]
      exact_mod_cast h
    rw [hq, le_div_iff₀ (zpow_pos h2 _), one_mul] at h1
    exact h1
  · obtain ⟨ha, -⟩ := log2_spec num hnum
    obtain ⟨-, hb⟩ := log2_spec den hden
    have ha2 : (2 : ℚ) ^ (Float64.log2 num) ≤ num := by exact_mod_cast ha
    have hb2 : (den : ℚ) < (2 : ℚ) ^ (Float64.log2 den + 1) := by exact_mod_cast hb
    have e1 : ((Float64.log2 num : ℤ) - Float64.log2 den - 1) =
        (Float64.log2 num : ℤ) - ((Float64.log2 den + 1 : ℕ) : ℤ) := by push_cast; ring
    rw [e1, zpow_sub₀ h2.ne', zpow_natCast, zpow_natCast]
    rw [div_le_div_iff₀ (by positivity) hd]
    calc (2 : ℚ) ^ Float64.log2 num * den ≤ num * den := by
          exact mul_le_mul_of_nonneg_right ha2 hd.le
      _ ≤ num * 2 ^ (Float64.log2 den + 1) := by
          exact mul_le_mul_of_nonneg_left hb2.le (by positivity)

theorem ofRat_spec (neg : Bool) (num den : Nat) (k : ℤ) (hnum : 0 < num) (hden : 0 < den)
    (hk : (num : ℚ) / den < (2 : ℚ) ^ k) (hk2 : k ≤ 1023) :
    ∃ m e, Float64.ofRat neg num den = .fin neg m e ∧ e ≤ max (k - 53) (-1074) ∧
      |(m : ℚ) * (2 : ℚ) ^ e - (num : ℚ) / den| ≤ (2 : ℚ) ^ e / 2 := by
  have h2 : (0 : ℚ) < 2 := by norm_num
  have hL : Float64.floorLog2 num den < k := by
    have := lt_of_le_of_lt (floorLog2_le num den hnum hden) hk
    exact (zpow_lt_zpow_iff_right₀ (by norm_num : (1 : ℚ) < 2)).1 this
  have he : max (Float64.floorLog2 num den - 52) (-1074) ≤ max (k - 53) (-1074) :=
    max_le_max (by omega) le_rfl
  have he2 : max (k - 53) (-1074) ≤ 970 := max_le (by omega) (by norm_num)
  set e := max (Float64.floorLog2 num den - 52) (-1074) with hedef
  obtain ⟨hp, hq⟩ := shiftFrac_spec num den e hden
  refine ⟨Float64.roundHalfEven (Float64.shiftFrac num den e).1 (Float64.shiftFrac num den e).2,
    e, ?_, he, ?_⟩
  · have hne : num ≠ 0 := hnum.ne'
    have hninf : ¬ (971 < e ∨ (e = 971 ∧ 2 ^ 53 ≤ Float64.roundHalfEven
        (Float64.shiftFrac num den e).1 (Float64.shiftFrac num den e).2)) := by
      intro h
      rcases h with h | ⟨h, -⟩ <;> omega
    simp only [Float64.ofRat, hne, if_false, ← hedef, hninf]
  · have h1 := roundHalfEven_spec (Float64.shiftFrac num den e).1 (Float64.shiftFrac num den e).2 hp
    rw [hq] at h1
    have hpos := zpow_pos h2 e
    have : (Float64.roundHalfEven (Float64.shiftFrac num den e).1
        (Float64.shiftFrac num den e).2 : ℚ) * (2 : ℚ) ^ e - (num : ℚ) / den =
        ((Float64.roundHalfEven (Float64.shiftFrac num den e).1
        (Float64.shiftFrac num den e).2 : ℚ) - (num : ℚ) / den / (2 : ℚ) ^ e) * (2 : ℚ) ^ e := by
      field_simp
      ring
    rw [this, abs_mul, abs_of_pos hpos]
    calc _ ≤ 1 / 2 * (2 : ℚ) ^ e := mul_le_mul_of_nonneg_right h1 hpos.le
      _ = (2 : ℚ) ^ e / 2 := by ring

/-! ## Helper lemmas: `ParseFloat` on a decimal with one fractional digit -/

theorem isDigit_facts (c : Char) (h : c.isDigit = true) :
    c ≠ '_' ∧ c ≠ '.' ∧ c ≠ '+' ∧ c ≠ '-' ∧ c ≠ 'i' ∧ c ≠ 'I' ∧ c ≠ 'n' ∧ c ≠ 'N' ∧
      strconv.lower c ≠ 120 ∧ strconv.isDigit c = true := by
  rcases char_isDigit_cases c h with h | h | h | h | h | h | h | h | h | h <;>
    subst h <;> decide

theorem readMantissa_digit_step (c : Char) (cs : List Char) (st : strconv.Mantissa)
    (hc : c.isDigit = true) :
    strconv.readMantissa false (c :: cs) st =
      if c = '0' ∧ st.nd = 0 then
        strconv.readMantissa false cs { st with sawdigits := true, dp := st.dp - 1 }
      else
        strconv.readMantissa false cs { st with
          sawdigits := true, nd := st.nd + 1,
          mantissa := st.mantissa * 10 + (c.toNat - 48) } := by
  obtain ⟨h1, h2, -, -, -, -, -, -, -, h3⟩ := isDigit_facts c hc
  rw [strconv.readMantissa]
  simp only [h1, h2, h3, if_false, if_true, Bool.false_eq_true]

theorem readMantissa_digits (rest : List Char) (ds : List Char) :
    (∀ c ∈ ds, c.isDigit = true) →
    ∀ st : strconv.Mantissa, (st.nd = 0 → st.mantissa = 0) →
    ∃ st1 : strconv.Mantissa,
      strconv.readMantissa false (ds ++ rest) st = strconv.readMantissa false rest st1 ∧
      st1.mantissa = ds.foldl (fun acc c => acc * 10 + (c.toNat - 48)) st.mantissa ∧
      st1.sawdot = st.sawdot ∧ st1.underscores = st.underscores ∧
      (st.sawdigits = true ∨ ds ≠ [] → st1.sawdigits = true) ∧
      st1.dp - (st1.nd : ℤ) = st.dp - (st.nd : ℤ) - ds.length ∧
      (st1.nd = 0 → st1.mantissa = 0) := by
  induction ds with
  | nil =>
    intro _ st hinv
    exact ⟨st, rfl, rfl, rfl, rfl, fun h => h.elim id (fun h => absurd rfl h), by simp, hinv⟩
  | cons c ds ih =>
    intro hds st hinv
    have hc := hds c (by simp)
    have hds1 : ∀ d ∈ ds, d.isDigit = true := fun d hd => hds d (by simp [hd])
    obtain ⟨h1, h2, -, -, -, -, -, -, -, h3⟩ := isDigit_facts c hc
    obtain ⟨mant, nd, dp, sawdot, sawdigits, us⟩ := st
    simp only at hinv
    by_cases hz : c = '0' ∧ nd = 0
    · obtain ⟨st1, e1, e2, e3, e4, e5, e6, e7⟩ :=
        ih hds1 ⟨mant, nd, dp - 1, sawdot, true, us⟩ hinv
      simp only at e2 e3 e4 e6
      refine ⟨st1, ?_, ?_, e3, e4, fun _ => ?_, ?_, e7⟩
      · rw [← e1, List.cons_append, readMantissa_digit_step _ _ _ hc, if_pos hz]
      · rw [e2, List.foldl_cons, hinv hz.2, hz.1]
        rfl
      · exact e5 (Or.inl rfl)
      · rw [e6]
        simp only [List.length_cons]
        push_cast
        ring
    · obtain ⟨st1, e1, e2, e3, e4, e5, e6, e7⟩ :=
        ih hds1 ⟨mant * 10 + (c.toNat - 48), nd + 1, dp, sawdot, true, us⟩
          (fun h => absurd h (Nat.succ_ne_zero nd))
      simp only at e2 e3 e4 e6
      refine ⟨st1, ?_, ?_, e3, e4, fun _ => ?_, ?_, e7⟩
      · rw [← e1, List.cons_append, readMantissa_digit_step _ _ _ hc, if_neg hz]
      · rw [e2, List.foldl_cons]
      · exact e5 (Or.inl rfl)
      · rw [e6]
        simp only [List.length_cons]
        push_cast
        ring

theorem special_digit (c : Char) (cs : List Char) (hc : c.isDigit = true) :
    strconv.special (c :: cs) = none := by
  obtain ⟨-, -, h3, h4, h5, h6, h7, h8, -, -⟩ := isDigit_facts c hc
  simp [strconv.special, h3, h4, h5, h6, h7, h8]

theorem readFloat_decimal (ds : List Char) (d : Char) (hds : isDigitRun ds = true)
    (hd : d.isDigit = true) :
    strconv.readFloat (ds ++ [ '.', d ]) =
      some (⟨decValue ds * 10 + (d.toNat - 48),
        if decValue ds * 10 + (d.toNat - 48) ≠ 0 then -1 else 0, false, false⟩, []) := by
  obtain ⟨hne, hall⟩ := (isDigitRun_iff ds).1 hds
  obtain ⟨st1, e1, e2, e3, e4, e5, e6, e7⟩ :=
    readMantissa_digits [ '.', d ] ds hall ⟨0, 0, 0, false, false, false⟩ (fun _ => rfl)
  simp only at e2 e3 e4 e6
  have hpt : strconv.readMantissa false [ '.', d ] st1 =
      strconv.readMantissa false [d] { st1 with sawdot := true, dp := st1.nd } := by
    rw [strconv.readMantissa]
    simp [e3]
  obtain ⟨st2, f1, f2, f3, f4, f5, f6, f7⟩ :=
    readMantissa_digits [] [d] (by simpa using hd) { st1 with sawdot := true, dp := st1.nd } e7
  simp only [List.foldl_cons, List.foldl_nil, List.length_singleton, sub_self,
    Nat.cast_one, zero_sub] at f2 f3 f4 f6
  have hst2 : strconv.readMantissa false (ds ++ [ '.', d ]) ⟨0, 0, 0, false, false, false⟩ =
      (st2, []) := by
    rw [e1, hpt]
    have := f1
    simp only [List.singleton_append] at this
    rw [this]
    rfl
  have hmant : st2.mantissa = decValue ds * 10 + (d.toNat - 48) := by
    rw [f2, e2]
    rfl
  have hdig : st2.sawdigits = true := f5 (Or.inr (by simp))
  have hus : st2.underscores = false := by rw [f4, e4]
  cases ds with
  | nil => exact absurd rfl hne
  | cons c0 tl =>
    have hc0 := hall c0 (by simp)
    obtain ⟨-, -, g3, g4, -, -, -, -, -, -⟩ := isDigit_facts c0 hc0
    have hhex : strconv.hasHexPrefix (c0 :: (tl ++ [ '.', d ])) = false := by
      cases tl with
      | nil => simp [strconv.hasHexPrefix]; intro _; decide
      | cons b tl2 =>
        have hb := hall b (by simp)
        obtain ⟨-, -, -, -, -, -, -, -, g9, -⟩ := isDigit_facts b hb
        cases tl2 <;> simp [strconv.hasHexPrefix, g9]
    have hneg : (c0 == '-') = false := by simpa using g4
    simp only [List.cons_append] at hst2
    simp only [strconv.readFloat, List.cons_append, g3, g4, or_self, if_false, hhex, hneg,
      Bool.false_eq_true, hst2, hdig, Bool.not_true, hus, false_and, hmant, f3, if_true, f6]

theorem parseFloat_decimal (ds : List Char) (d : Char) (hds : isDigitRun ds = true)
    (hd : d.isDigit = true)
    (hk : ((decValue ds * 10 + (d.toNat - 48) : ℕ) : ℚ) / (10 : ℕ) < (2 : ℚ) ^ (1023 : ℤ)) :
    strconv.ParseFloat (String.mk (ds ++ [ '.', d ])) =
      .ok (Float64.ofRat false (decValue ds * 10 + (d.toNat - 48)) 10) := by
  obtain ⟨hne, hall⟩ := (isDigitRun_iff ds).1 hds
  have hsp : strconv.special (ds ++ [ '.', d ]) = none := by
    cases ds with
    | nil => exact absurd rfl hne
    | cons c0 tl => exact special_digit c0 _ (hall c0 (by simp))
  simp only [strconv.ParseFloat, hsp, readFloat_decimal ds d hds hd, ne_eq, not_true_eq_false,
    if_false]
  by_cases h0 : decValue ds * 10 + (d.toNat - 48) = 0
  · simp [h0, Float64.ofScaled, Float64.ofRat]
  · obtain ⟨m, e, hfe, -, -⟩ := ofRat_spec false _ 10 1023 (Nat.pos_of_ne_zero h0)
      (by norm_num) hk le_rfl
    have h1 : Float64.ofScaled false (decValue ds * 10 + (d.toNat - 48)) 10 (-1) =
        Float64.ofRat false (decValue ds * 10 + (d.toNat - 48)) 10 := rfl
    simp only [h0, not_false_eq_true, if_true, Bool.false_eq_true, if_false, h1, hfe]

theorem add_spec (m1 m2 : Nat) (e1 e2 k : ℤ)
    (hpos : 0 < (m1 : ℚ) * (2 : ℚ) ^ e1 + (m2 : ℚ) * (2 : ℚ) ^ e2)
    (hk : (m1 : ℚ) * (2 : ℚ) ^ e1 + (m2 : ℚ) * (2 : ℚ) ^ e2 < (2 : ℚ) ^ k) (hk2 : k ≤ 1023) :
    ∃ m e, Float64.add (.fin false m1 e1) (.fin false m2 e2) = .fin false m e ∧
      e ≤ max (k - 53) (-1074) ∧
      |(m : ℚ) * (2 : ℚ) ^ e - ((m1 : ℚ) * (2 : ℚ) ^ e1 + (m2 : ℚ) * (2 : ℚ) ^ e2)| ≤
        (2 : ℚ) ^ e / 2 := by
  have h2 : (2 : ℚ) ≠ 0 := by norm_num
  set e := min e1 e2 with he
  set n : ℕ := m1 * 2 ^ (e1 - e).toNat + m2 * 2 ^ (e2 - e).toNat with hn
  have hpow : ∀ x : ℤ, e ≤ x → ((2 : ℚ) ^ (x - e).toNat) * (2 : ℚ) ^ e = (2 : ℚ) ^ x := by
    intro x hx
    rw [← zpow_natCast, Int.toNat_of_nonneg (by omega), ← zpow_add₀ h2]
    congr 1
    ring
  have hval : (n : ℚ) * (2 : ℚ) ^ e = (m1 : ℚ) * (2 : ℚ) ^ e1 + (m2 : ℚ) * (2 : ℚ) ^ e2 := by
    rw [hn]
    push_cast
    rw [add_mul, mul_assoc, mul_assoc, hpow e1 (min_le_left _ _), hpow e2 (min_le_right _ _)]
  have hnpos : 0 < n := by
    rcases Nat.eq_zero_or_pos n with h | h
    · rw [h] at hval
      simp only [Nat.cast_zero, zero_mul] at hval
      rw [← hval] at hpos
      exact absurd hpos (lt_irrefl _)
    · exact h
  have hs : Float64.signed false (m1 * 2 ^ (e1 - e).toNat) +
      Float64.signed false (m2 * 2 ^ (e2 - e).toNat) = (n : ℤ) := by
    simp [Float64.signed, hn]
  have hadd : Float64.add (.fin false m1 e1) (.fin false m2 e2) = Float64.ofScaled false n 2 e := by
    have hn0 : (n : ℤ) ≠ 0 := by exact_mod_cast hnpos.ne'
    have hlt : ¬ ((n : ℤ) < 0) := by omega
    simp only [Float64.add, ← he, hs, hn0, if_false, hlt, decide_False, Int.natAbs_ofNat]
  rw [hadd, ← hval]
  rw [← hval] at hk
  cases hecase : e with
  | ofNat j =>
    rw [hecase] at hk
    have hq : ((n * 2 ^ j : ℕ) : ℚ) / (1 : ℕ) = (n : ℚ) * (2 : ℚ) ^ (Int.ofNat j) := by
      push_cast
      rw [Int.ofNat_eq_coe, zpow_natCast]
      simp
    obtain ⟨m, e', h1, h2', h3⟩ := ofRat_spec false (n * 2 ^ j) 1 k (by positivity) (by norm_num)
      (by rw [hq]; exact hk) hk2
    exact ⟨m, e', by simpa [Float64.ofScaled] using h1, h2', by rw [← hq]; exact h3⟩
  | negSucc j =>
    rw [hecase] at hk
    have hq : ((n : ℕ) : ℚ) / ((2 ^ (j + 1) : ℕ) : ℚ) = (n : ℚ) * (2 : ℚ) ^ (Int.negSucc j) := by
      push_cast
      rw [Int.negSucc_eq, zpow_neg]
      have : ((j : ℤ) + 1) = ((j + 1 : ℕ) : ℤ) := by push_cast; ring
      rw [this, zpow_natCast]
      field_simp
    obtain ⟨m, e', h1, h2', h3⟩ := ofRat_spec false n (2 ^ (j + 1)) k hnpos (by positivity)
      (by rw [hq]; exact hk) hk2
    exact ⟨m, e', by simpa [Float64.ofScaled] using h1, h2', by rw [← hq]; exact h3⟩

theorem sprintf_eq (m : Nat) (e : ℤ) (t : Nat)
    (h : |(m : ℚ) * (2 : ℚ) ^ e * 10 ^ 6 - t| < 1 / 2) :
    fmt.Sprintf_f (.fin false m e) =
      String.mk (Nat.toDigits 10 (t / 10 ^ 6) ++ '.' :: Float64.padDigits 6 (t % 10 ^ 6)) := by
  obtain ⟨hp, hq⟩ := shiftFrac_spec (m * 10 ^ 6) 1 (-e) Nat.one_pos
  have hr : Float64.roundHalfEven (Float64.shiftFrac (m * 10 ^ 6) 1 (-e)).1
      (Float64.shiftFrac (m * 10 ^ 6) 1 (-e)).2 = t := by
    apply roundHalfEven_eq _ _ _ hp
    rw [hq]
    have : ((m * 10 ^ 6 : ℕ) : ℚ) / ((1 : ℕ) : ℚ) / (2 : ℚ) ^ (-e) =
        (m : ℚ) * (2 : ℚ) ^ e * 10 ^ 6 := by
      rw [zpow_neg]
      push_cast
      field_simp
      ring
    rw [this]
    exact h
  simp only [fmt.Sprintf_f, hr, Bool.false_eq_true, if_false, List.nil_append,
    List.append_assoc, List.singleton_append]

theorem zpow_two_le_of_le (e : ℤ) (h : e ≤ max (32 - 53) (-1074)) :
    (2 : ℚ) ^ e / 2 ≤ 1 / 4194304 := by
  have h1 : e ≤ -21 := le_trans h (max_le (by norm_num) (by norm_num))
  have h2 : (2 : ℚ) ^ e ≤ (2 : ℚ) ^ (-21 : ℤ) := zpow_le_zpow_right₀ (by norm_num) h1
  have h3 : (2 : ℚ) ^ (-21 : ℤ) = 1 / 2097152 := by
    rw [zpow_neg]
    norm_num
  rw [h3] at h2
  linarith

theorem ofRat_tenths (k : Nat) (hk : k < 10 * (2 ^ 32 - 1)) :
    ∃ m e, Float64.ofRat false k 10 = .fin false m e ∧
      |(m : ℚ) * (2 : ℚ) ^ e - (k : ℚ) / 10| ≤ 1 / 4194304 := by
  rcases Nat.eq_zero_or_pos k with h0 | hpos
  · subst h0
    exact ⟨0, 0, rfl, by norm_num⟩
  · have hk1 : k < 42949672950 := hk
    have hkq : (k : ℚ) < 42949672950 := by exact_mod_cast hk1
    have hlt : ((k : ℕ) : ℚ) / ((10 : ℕ) : ℚ) < (2 : ℚ) ^ (32 : ℤ) := by
      rw [div_lt_iff₀ (by norm_num)]
      norm_num
      linarith
    obtain ⟨m, e, h1, h2, h3⟩ := ofRat_spec false k 10 32 hpos (by norm_num) hlt (by norm_num)
    refine ⟨m, e, h1, le_trans ?_ (zpow_two_le_of_le e h2)⟩
    simpa using h3

theorem oneTenth_eq : Float64.oneTenth = .fin false 7205759403792794 (-56) := by
  decide

theorem sprintf_add_tenth (k : Nat) (hk : k < 10 * (2 ^ 32 - 1)) :
    fmt.Sprintf_f (Float64.add (Float64.ofRat false k 10) Float64.oneTenth) =
      decimalPlusTenth k := by
  obtain ⟨m1, e1, hx, hxe⟩ := ofRat_tenths k hk
  have hk1 : k < 42949672950 := hk
  have hkq : (k : ℚ) < 42949672950 := by exact_mod_cast hk1
  have hk0 : (0 : ℚ) ≤ k := by positivity
  have hy : (7205759403792794 : ℚ) * (2 : ℚ) ^ (-56 : ℤ) = 1 / 10 + 1 / 180143985094819840 := by
    rw [zpow_neg]
    norm_num
  rw [abs_le] at hxe
  have hpos : 0 < (m1 : ℚ) * (2 : ℚ) ^ e1 + ((7205759403792794 : ℕ) : ℚ) * (2 : ℚ) ^ (-56 : ℤ) := by
    push_cast
    rw [hy]
    have : (0 : ℚ) ≤ (m1 : ℚ) * (2 : ℚ) ^ e1 := by positivity
    linarith
  have hlt : (m1 : ℚ) * (2 : ℚ) ^ e1 + ((7205759403792794 : ℕ) : ℚ) * (2 : ℚ) ^ (-56 : ℤ) <
      (2 : ℚ) ^ (32 : ℤ) := by
    push_cast
    rw [hy]
    norm_num
    linarith [hxe.2]
  obtain ⟨m3, e3, hz, he3, hze⟩ := add_spec m1 7205759403792794 e1 (-56) 32 hpos hlt (by norm_num)
  have hze2 := le_trans hze (zpow_two_le_of_le e3 he3)
  push_cast at hze2
  rw [hy, abs_le] at hze2
  rw [hx, oneTenth_eq, hz]
  have hfmt := sprintf_eq m3 e3 ((k + 1) * 10 ^ 5) (by
    rw [abs_lt]
    push_cast
    constructor <;> linarith [hze2.1, hze2.2, hxe.1, hxe.2])
  rw [hfmt]
  have hdiv : (k + 1) * 10 ^ 5 / 10 ^ 6 = (k + 1) / 10 := by omega
  have hmod : (k + 1) * 10 ^ 5 % 10 ^ 6 = (k + 1) % 10 * 10 ^ 5 := by omega
  rw [hdiv, hmod]
  have hpad : ∀ j, j < 10 → Float64.padDigits 6 (j * 10 ^ 5) =
      [Nat.digitChar j, '0', '0', '0', '0', '0'] := by
    intro j hj
    interval_cases j <;> rfl
  have hj : (k + 1) % 10 < 10 := Nat.mod_lt _ (by decide)
  rw [hpad _ hj]
  rfl

/-! ## Helper lemmas: declared keys and the package table -/

theorem getRequire_found_iff (c : ComposerJSON) (k : String) :
    (c.GetRequire k).2 = true ↔ Declares c k := by
  unfold ComposerJSON.GetRequire Declares
  cases hr : c.Require with
  | none => simp
  | some m =>
    have := lookup_ne_none_iff_mem_keys m k
    simp only [Option.some.injEq, exists_eq_left']
    cases hl : m.lookup k with
    | none => rw [hl] at this; simpa using this
    | some v => rw [hl] at this; simpa using this

theorem depMap_lookup_eq_none_iff (dep : String) :
    depMap.lookup dep = none ↔ dep ∉ depMap.map Prod.fst := by
  generalize depMap = l
  induction l with
  | nil => simp
  | cons p l ih =>
    obtain ⟨a, b⟩ := p
    by_cases hk : dep = a
    · subst hk
      simp [List.lookup]
    · have hk2 : (dep == a) = false := by simpa using hk
      simp only [List.lookup, hk2, List.map_cons, List.mem_cons, hk, false_or]
      exact ih

theorem tableSegment_cons (dep : String) (keys : List String) :
    tableSegment (dep :: keys) = (depMap.lookup dep).getD [] ++ tableSegment keys := by
  by_cases h : dep ∈ depMap.map Prod.fst
  · simp [tableSegment, matchedKeys, List.filter_cons, h]
  · have hn := (depMap_lookup_eq_none_iff dep).2 h
    simp [tableSegment, matchedKeys, List.filter_cons, h, hn]

theorem aptLoop_eq (keys : List String) :
    ∀ dependencies, DetermineAptDependencies.loop keys dependencies =
      dependencies ++ tableSegment keys := by
  induction keys with
  | nil => intro d; simp [DetermineAptDependencies.loop, tableSegment, matchedKeys]
  | cons dep keys ih =>
    intro d
    rw [tableSegment_cons, DetermineAptDependencies.loop]
    cases h : depMap.lookup dep with
    | none => simp [ih]
    | some val => simp [ih]

theorem determineApt_of_require (source : Fs) (server : String)
    (order : List String → List String) (c : ComposerJSON) (m : List (String × String))
    (hc : source.composer = some c) (hm : c.Require = some m) :
    DetermineAptDependencies source server order =
      basePrefix server ++ tableSegment (order (m.map Prod.fst)) := by
  simp only [DetermineAptDependencies, parseComposerJSON, hc, hm, aptLoop_eq, basePrefix]
  by_cases hs : server = "swoole" <;> simp [hs]

theorem determineApt_of_no_require (source : Fs) (server : String)
    (order : List String → List String)
    (h : source.composer = none ∨ ∃ c, source.composer = some c ∧ c.Require = none) :
    DetermineAptDependencies source server order = basePrefix server := by
  rcases h with h | ⟨c, hc, hr⟩
  · simp only [DetermineAptDependencies, parseComposerJSON, h, basePrefix]
    by_cases hs : server = "swoole" <;> simp [hs]
  · simp only [DetermineAptDependencies, parseComposerJSON, hc, hr, basePrefix]
    by_cases hs : server = "swoole" <;> simp [hs]

theorem determineApt_cases (source : Fs) (server : String)
    (order : List String → List String) :
    ∃ keys, DetermineAptDependencies source server order = basePrefix server ++ tableSegment keys := by
  cases hc : source.composer with
  | none =>
    exact ⟨[], by rw [determineApt_of_no_require _ _ _ (Or.inl hc)]; simp [tableSegment, matchedKeys]⟩
  | some c =>
    cases hr : c.Require with
    | none =>
      exact ⟨[], by
        rw [determineApt_of_no_require _ _ _ (Or.inr ⟨c, hc, hr⟩)]
        simp [tableSegment, matchedKeys]⟩
    | some m => exact ⟨_, determineApt_of_require _ _ _ c m hc hr⟩

theorem mem_tableSegment (x : String) (keys : List String) (h : x ∈ tableSegment keys) :
    x ∈ ["libssl-dev", "libzip-dev", "libcurl4-openssl-dev", "libpng-dev", "libgmp-dev"] := by
  simp only [tableSegment, matchedKeys, List.mem_flatMap, List.mem_filter, decide_eq_true_eq] at h
  obtain ⟨dep, ⟨-, hdep⟩, hx⟩ := h
  simp only [depMap, List.map_cons, List.map_nil, List.mem_cons, List.mem_singleton,
    List.not_mem_nil, or_false] at hdep
  rcases hdep with rfl | rfl | rfl | rfl | rfl <;>
    simp [depMap, List.lookup] at hx <;>
    first
      | (subst hx; decide)
      | (rcases hx with rfl | rfl <;> decide)

theorem count_libssl_entry (dep : String) :
    ((depMap.lookup dep).getD []).count "libssl-dev" =
      (if dep = "ext-openssl" then 1 else 0) + (if dep = "ext-curl" then 1 else 0) := by
  by_cases h1 : dep = "ext-openssl"
  · subst h1; decide
  by_cases h2 : dep = "ext-zip"
  · subst h2; decide
  by_cases h3 : dep = "ext-curl"
  · subst h3; decide
  by_cases h4 : dep = "ext-gd"
  · subst h4; decide
  by_cases h5 : dep = "ext-gmp"
  · subst h5; decide
  have hn : depMap.lookup dep = none := by
    rw [depMap_lookup_eq_none_iff]
    simp [depMap, h1, h2, h3, h4, h5]
  simp [hn, h1, h3]

theorem count_libssl_tableSegment (keys : List String) :
    (tableSegment keys).count "libssl-dev" =
      keys.count "ext-openssl" + keys.count "ext-curl" := by
  induction keys with
  | nil => rfl
  | cons dep keys ih =>
    rw [tableSegment_cons, List.count_append, ih, count_libssl_entry, List.count_cons,
      List.count_cons]
    by_cases h1 : dep = "ext-openssl" <;> by_cases h3 : dep = "ext-curl" <;>
      simp [h1, h3] <;> omega

theorem tableSegment_perm (k1 k2 : List String) (h : k1.Perm k2) :
    (tableSegment k1).Perm (tableSegment k2) :=
  List.Perm.flatMap_right _ (List.Perm.filter _ h)

/-! ## C1 -/

/-- C1: when the composer manifest cannot be loaded, or it has no `"php"` entry
in `require` (no `require` section at all, or no such key), or the `"php"`
entry is the empty string, `GetPHPVersion` returns the default `"8.1"`. -/
theorem C1_default_without_constraint (source : Fs)
    (h : source.composer = none ∨
      ∃ c, source.composer = some c ∧
        (c.Require = none ∨
          ∃ m, c.Require = some m ∧ (m.lookup "php" = none ∨ m.lookup "php" = some ""))) :
    GetPHPVersion source = "8.1" := by
  rcases h with h | ⟨c, hc, h | ⟨m, hm, h | h⟩⟩
  · simp [GetPHPVersion, parseComposerJSON, h, DefaultPHPVersion]
  · simp [GetPHPVersion, parseComposerJSON, hc, ComposerJSON.GetRequire, h, DefaultPHPVersion]
  · simp [GetPHPVersion, parseComposerJSON, hc, ComposerJSON.GetRequire, hm, h,
      DefaultPHPVersion]
  · simp [GetPHPVersion, parseComposerJSON, hc, ComposerJSON.GetRequire, hm, h,
      DefaultPHPVersion]

/-- C1 at a manifest that declares dependencies, none of them `"php"`. -/
theorem C1_default_without_constraint_witness :
    GetPHPVersion ⟨some ⟨"app", some [("ext-gd", "*"), ("laravel/framework", "^10.0")]⟩⟩
      = "8.1" :=
  C1_default_without_constraint _
    (Or.inr ⟨_, rfl, Or.inr ⟨_, rfl, Or.inl (by decide)⟩⟩)

/-! ## C2 -/

/-- C2: a `"php"` constraint that is, in its entirety, one to three
dot-separated non-empty runs of decimal digits is returned unchanged by
`GetPHPVersion`. -/
theorem C2_bare_version_unchanged (source : Fs) (v : String)
    (h : HasPHPConstraint source v) (hv : isBareVersion v = true) :
    GetPHPVersion source = v := by
  rw [getPHPVersion_of_constraint source v h]
  have hm := (matchString_iff_isBareVersion v).2 hv
  have hne : v ≠ "" := by
    rintro rfl
    exact absurd hv (by decide)
  simp [hne, hm]

/-- C2 at the constraint `"8.2.10"`. -/
theorem C2_bare_version_unchanged_witness :
    GetPHPVersion (phpSource "8.2.10") = "8.2.10" :=
  C2_bare_version_unchanged _ _ (hasPHPConstraint_phpSource _) (by decide)

/-! ## C3 -/

/-- C3: when the first space-separated atom of the `"php"` constraint is
`">=" ++ rest` (the constraint is that atom alone, or that atom, a space and
anything at all), `GetPHPVersion` returns `rest`: the first atom wins and
later atoms, upper bounds included, are not looked at. -/
theorem C3_ge_first_atom (source : Fs) (rest tail : String)
    (hrest : ' ' ∉ rest.data) (htail : tail = "" ∨ ∃ t : String, tail = " " ++ t)
    (h : HasPHPConstraint source (">=" ++ rest ++ tail)) :
    GetPHPVersion source = rest := by
  rw [getPHPVersion_of_constraint source _ h]
  have hd : (">=" ++ rest ++ tail).data = '>' :: ('=' :: rest.data ++ tail.data) := by
    simp [String.data_append]
  have hne : ">=" ++ rest ++ tail ≠ "" := by
    intro e
    have := congrArg String.data e
    rw [hd] at this
    exact absurd this (by simp)
  have hm := matchString_false_of_head _ _ _ hd (by decide)
  have hatom : ' ' ∉ (">=" ++ rest).data := by
    simp [String.data_append, hrest]
  obtain ⟨more, hsplit⟩ := split_space_first (">=" ++ rest) tail hatom htail
  simp [hne, hm, hsplit, GetPHPVersion.loop, hasPrefix_append, trimPrefix_append]

/-- C3 at the constraint `">=7.4 <8.0"`. -/
theorem C3_ge_first_atom_witness :
    GetPHPVersion (phpSource ">=7.4 <8.0") = "7.4" :=
  C3_ge_first_atom (phpSource ">=7.4 <8.0") "7.4" " <8.0" (by decide) (Or.inr ⟨"<8.0", rfl⟩)
    (hasPHPConstraint_phpSource _)

/-! ## C4 -/

/-- C4: on the constraint `"<8.3"` the code returns the default `"8.1"`, not
`"8.200000"`: the `<` branch trims the prefix `"<="`, which is not there, so
the text handed to `ParseFloat` is `"<8.3"` and the atom is skipped.  With the
`"<"` trimmed, the same branch would give `8.3 - 0.1` as `"8.200000"`. -/
theorem C4_lt_atom_gives_default :
    GetPHPVersion (phpSource "<8.3") = "8.1" ∧
      strings.TrimPrefix "<8.3" "<=" = "<8.3" ∧
      strconv.ParseFloat "<8.3" = .error .ErrSyntax ∧
      (strconv.ParseFloat (strings.TrimPrefix "<8.3" "<")).map
        (fun value => fmt.Sprintf_f (Float64.sub value Float64.oneTenth)) = .ok "8.200000" := by
  refine ⟨by decide, by decide, rfl, rfl⟩

/-! ## C5 -/

set_option maxRecDepth 100000 in
/-- C5, as stated, fails in its general part: on the constraint
`">4294967296.1"` the float64 sum is printed as `"4294967296.200001"`, while
the decimal `4294967296.1 + 0.1` with six fractional digits is
`"4294967296.200000"`. -/
theorem C5_float_sum_differs :
    GetPHPVersion (phpSource ">4294967296.1") = "4294967296.200001" ∧
      decimalPlusTenth (decValue "4294967296".data * 10 + ('1'.toNat - 48)) =
        "4294967296.200000" ∧
      GetPHPVersion (phpSource ">4294967296.1") ≠
        decimalPlusTenth (decValue "4294967296".data * 10 + ('1'.toNat - 48)) := by
  decide

/-- C5, amended: when the first space-separated atom of the `"php"` constraint
is `>` followed by a decimal number `M.m` with one fractional digit and
`M + 1 < 2^32`, `GetPHPVersion` returns the decimal `M.m + 0.1` printed with
six fractional digits (so `">8.0"` gives `"8.100000"`, not `"8.1"`). -/
theorem C5_gt_adds_tenth (source : Fs) (ds : List Char) (d : Char) (tail : String)
    (hds : isDigitRun ds = true) (hd : d.isDigit = true)
    (hbound : decValue ds + 1 < 2 ^ 32)
    (htail : tail = "" ∨ ∃ t : String, tail = " " ++ t)
    (h : HasPHPConstraint source (String.mk ('>' :: ds ++ [ '.', d ]) ++ tail)) :
    GetPHPVersion source = decimalPlusTenth (decValue ds * 10 + (d.toNat - 48)) := by
  rw [getPHPVersion_of_constraint source _ h]
  obtain ⟨hne, hall⟩ := (isDigitRun_iff ds).1 hds
  have hdv : d.toNat - 48 ≤ 9 := by
    have := ((char_isDigit_iff_toNat d).1 hd).2
    omega
  have hk : decValue ds * 10 + (d.toNat - 48) < 10 * (2 ^ 32 - 1) := by
    have h1 : decValue ds + 1 < 4294967296 := hbound
    show decValue ds * 10 + (d.toNat - 48) < 42949672950
    omega
  have hdata : (String.mk ('>' :: ds ++ [ '.', d ]) ++ tail).data =
      '>' :: (ds ++ [ '.', d ] ++ tail.data) := by
    simp [String.data_append]
  have hnempty : String.mk ('>' :: ds ++ [ '.', d ]) ++ tail ≠ "" := by
    intro e
    have := congrArg String.data e
    rw [hdata] at this
    exact absurd this (by simp)
  have hm := matchString_false_of_head _ _ _ hdata (by decide)
  have hsp : ' ' ∉ (String.mk ('>' :: ds ++ [ '.', d ])).data := by
    have h1 : ' ' ∉ ds := fun hmem => absurd (hall _ hmem) (by decide)
    have h2 : ¬ ' ' = d := by
      rintro rfl
      exact absurd hd (by decide)
    simp [h1, h2]
  obtain ⟨more, hsplit⟩ := split_space_first _ tail hsp htail
  have hatom : String.mk ('>' :: ds ++ [ '.', d ]) = ">" ++ String.mk (ds ++ [ '.', d ]) := by
    apply String.ext
    simp [String.data_append]
  have h1 : strings.HasPrefix (">" ++ String.mk (ds ++ [ '.', d ])) ">=" = false := by
    cases ds with
    | nil => exact absurd rfl hne
    | cons c0 tl =>
      have hc0 : ¬ '=' = c0 := by
        intro e
        have hc := hall c0 (by simp)
        rw [← e] at hc
        exact absurd hc (by decide)
      simp [strings.HasPrefix, String.data_append, List.isPrefixOf, hc0]
  have hkq : ((decValue ds * 10 + (d.toNat - 48) : ℕ) : ℚ) / (10 : ℕ) < (2 : ℚ) ^ (1023 : ℤ) := by
    have hk1 : decValue ds * 10 + (d.toNat - 48) < 42949672950 := hk
    have h3 : ((decValue ds * 10 + (d.toNat - 48) : ℕ) : ℚ) < 42949672950 := by exact_mod_cast hk1
    have h4 : (42949672950 : ℚ) / 10 < (2 : ℚ) ^ (1023 : ℤ) := by
      rw [show (1023 : ℤ) = ((1023 : ℕ) : ℤ) by norm_num, zpow_natCast]
      norm_num
    calc ((decValue ds * 10 + (d.toNat - 48) : ℕ) : ℚ) / (10 : ℕ)
        ≤ (42949672950 : ℚ) / 10 := by
          push_cast
          apply div_le_div_of_nonneg_right _ (by norm_num)
          push_cast at h3
          exact h3.le
      _ < _ := h4
  simp only [hnempty, hm, if_false, Bool.false_eq_true, hsplit]
  rw [hatom, GetPHPVersion.loop]
  simp only [h1, Bool.false_eq_true, if_false, hasPrefix_append, if_true, trimPrefix_append,
    parseFloat_decimal ds d hds hd hkq]
  exact sprintf_add_tenth _ hk

/-- C5 at the constraint `">8.0"`: the result is `"8.100000"`. -/
theorem C5_gt_adds_tenth_witness :
    GetPHPVersion (phpSource ">8.0") = "8.100000" :=
  C5_gt_adds_tenth (phpSource ">8.0") [ '8' ] '0' "" (by decide) (by decide) (by decide)
    (Or.inl rfl) (hasPHPConstraint_phpSource _)

/-! ## C6 -/

/-- C6: when the first space-separated atom of the `"php"` constraint is
`"<=" ++ rest`, `GetPHPVersion` returns `rest`. -/
theorem C6_le_first_atom (source : Fs) (rest tail : String)
    (hrest : ' ' ∉ rest.data) (htail : tail = "" ∨ ∃ t : String, tail = " " ++ t)
    (h : HasPHPConstraint source ("<=" ++ rest ++ tail)) :
    GetPHPVersion source = rest := by
  rw [getPHPVersion_of_constraint source _ h]
  have hd : ("<=" ++ rest ++ tail).data = '<' :: ('=' :: rest.data ++ tail.data) := by
    simp [String.data_append]
  have hne : "<=" ++ rest ++ tail ≠ "" := by
    intro e
    have := congrArg String.data e
    rw [hd] at this
    exact absurd this (by simp)
  have hm := matchString_false_of_head _ _ _ hd (by decide)
  have hatom : ' ' ∉ ("<=" ++ rest).data := by
    simp [String.data_append, hrest]
  obtain ⟨more, hsplit⟩ := split_space_first ("<=" ++ rest) tail hatom htail
  have h1 : strings.HasPrefix ("<=" ++ rest) ">=" = false := by
    simp [strings.HasPrefix, String.data_append, List.isPrefixOf]
  have h2 : strings.HasPrefix ("<=" ++ rest) ">" = false := by
    simp [strings.HasPrefix, String.data_append, List.isPrefixOf]
  simp [hne, hm, hsplit, GetPHPVersion.loop, hasPrefix_append, trimPrefix_append, h1, h2]

/-- C6 at the constraint `"<=8.3"`. -/
theorem C6_le_first_atom_witness :
    GetPHPVersion (phpSource "<=8.3") = "8.3" :=
  C6_le_first_atom (phpSource "<=8.3") "8.3" "" (by decide) (Or.inl rfl)
    (hasPHPConstraint_phpSource _)

/-! ## C7 -/

/-- C7: let the atom `a = op ++ n` be `>` or `<` (the operator `op`) followed by
space-free text `n` that does not start with `=` and that `ParseFloat`
rejects, and let `v` be space-free.  On the constraint `a ++ " >=" ++ v`,
`GetPHPVersion` skips `a` without aborting and returns `v`. -/
theorem C7_unparsable_atom_skipped (source : Fs) (op n v : String)
    (hop : op = ">" ∨ op = "<")
    (hn : ' ' ∉ n.data) (heq : n.data.head? ≠ some '=')
    (hbad : ∃ e, strconv.ParseFloat n = .error e)
    (hv : ' ' ∉ v.data)
    (h : HasPHPConstraint source (op ++ n ++ " >=" ++ v)) :
    GetPHPVersion source = v := by
  rw [getPHPVersion_of_constraint source _ h]
  obtain ⟨e, he⟩ := hbad
  have hsplit : ∀ c : Char, c ≠ ' ' →
      strings.splitChars ' ' (c :: (n.data ++ ' ' :: '>' :: '=' :: v.data)) =
        [c :: n.data, '>' :: '=' :: v.data] := by
    intro c hc
    have h1 : ' ' ∉ c :: n.data := by simp [hn, Ne.symm hc]
    have h2 : ' ' ∉ '>' :: '=' :: v.data := by simp [hv]
    have := splitChars_append_sep ' ' (c :: n.data) ('>' :: '=' :: v.data) h1
    rw [splitChars_of_not_mem _ _ h2] at this
    simpa using this
  have hneq : (['=' ].isPrefixOf n.data) = false := by
    cases hnd : n.data with
    | nil => rfl
    | cons d ds =>
      rw [hnd] at heq
      have : d ≠ '=' := by simpa using heq
      simp [List.isPrefixOf, Ne.symm this]
  have hlast : GetPHPVersion.loop [String.mk ('>' :: '=' :: v.data)] = v := by
    have : String.mk ('>' :: '=' :: v.data) = ">=" ++ v := by
      apply String.ext
      simp [String.data_append]
    rw [this]
    simp [GetPHPVersion.loop, hasPrefix_append, trimPrefix_append]
  rcases hop with rfl | rfl
  · have hd : (">" ++ n ++ " >=" ++ v).data = '>' :: (n.data ++ ' ' :: '>' :: '=' :: v.data) := by
      simp [String.data_append]
    have hne : ">" ++ n ++ " >=" ++ v ≠ "" := by
      intro e
      have := congrArg String.data e
      rw [hd] at this
      exact absurd this (by simp)
    have hm := matchString_false_of_head _ _ _ hd (by decide)
    have ha : String.mk ('>' :: n.data) = ">" ++ n := by
      apply String.ext
      simp [String.data_append]
    have h1 : strings.HasPrefix (">" ++ n) ">=" = false := by
      simpa [strings.HasPrefix, String.data_append, List.isPrefixOf] using hneq
    simp only [hne, hm, if_false, Bool.false_eq_true, strings.Split, hd, hsplit '>' (by decide),
      List.map_cons, List.map_nil, ha]
    rw [GetPHPVersion.loop]
    simp only [h1, Bool.false_eq_true, if_false, hasPrefix_append, if_true, trimPrefix_append, he]
    exact hlast
  · have hd : ("<" ++ n ++ " >=" ++ v).data = '<' :: (n.data ++ ' ' :: '>' :: '=' :: v.data) := by
      simp [String.data_append]
    have hne : "<" ++ n ++ " >=" ++ v ≠ "" := by
      intro e
      have := congrArg String.data e
      rw [hd] at this
      exact absurd this (by simp)
    have hm := matchString_false_of_head _ _ _ hd (by decide)
    have ha : String.mk ('<' :: n.data) = "<" ++ n := by
      apply String.ext
      simp [String.data_append]
    have h1 : strings.HasPrefix ("<" ++ n) ">=" = false := by
      simp [strings.HasPrefix, String.data_append, List.isPrefixOf]
    have h2 : strings.HasPrefix ("<" ++ n) ">" = false := by
      simp [strings.HasPrefix, String.data_append, List.isPrefixOf]
    have h3 : strings.HasPrefix ("<" ++ n) "<=" = false := by
      simpa [strings.HasPrefix, String.data_append, List.isPrefixOf] using hneq
    have h4 : strings.TrimPrefix ("<" ++ n) "<=" = "<" ++ n := by
      simp [strings.TrimPrefix, h3]
    have h5 := parseFloat_lt ("<" ++ n) n.data (by simp [String.data_append])
    simp only [hne, hm, if_false, Bool.false_eq_true, strings.Split, hd, hsplit '<' (by decide),
      List.map_cons, List.map_nil, ha]
    rw [GetPHPVersion.loop]
    simp only [h1, h2, h3, Bool.false_eq_true, if_false, hasPrefix_append, if_true, h4, h5]
    exact hlast

/-- C7 at the constraint `"<x.y >=7.4"`. -/
theorem C7_unparsable_atom_skipped_witness :
    GetPHPVersion (phpSource "<x.y >=7.4") = "7.4" :=
  C7_unparsable_atom_skipped (phpSource "<x.y >=7.4") "<" "x.y" "7.4" (Or.inr rfl)
    (by decide) (by decide) ⟨.ErrSyntax, rfl⟩ (by decide) (hasPHPConstraint_phpSource _)

/-! ## C8 -/

/-- C8: a `"php"` constraint that is not a bare version and none of whose
space-separated atoms starts with `>` or `<` makes `GetPHPVersion` skip
every atom and return the default `"8.1"`. -/
theorem C8_default_without_bounds (source : Fs) (v : String)
    (h : HasPHPConstraint source v) (hbare : isBareVersion v = false)
    (hatoms : ∀ atom ∈ strings.Split v ' ',
      atom.data.head? ≠ some '>' ∧ atom.data.head? ≠ some '<') :
    GetPHPVersion source = "8.1" := by
  rw [getPHPVersion_of_constraint source v h]
  have hm : regexp.MatchString v = false := by
    cases e : regexp.MatchString v with
    | false => rfl
    | true => rw [(matchString_iff_isBareVersion v).1 e] at hbare; exact Bool.noConfusion hbare
  rw [loop_default_of_no_bounds _ hatoms]
  simp [hm, DefaultPHPVersion]

/-- C8 at the constraint `"^8.1 || ~8.0.0"`. -/
theorem C8_default_without_bounds_witness :
    GetPHPVersion (phpSource "^8.1 || ~8.0.0") = "8.1" :=
  C8_default_without_bounds _ _ (hasPHPConstraint_phpSource _) (by decide) (by decide)

/-! ## C9 -/

/-- C9, as stated, fails: on the constraint `">=7.4,<8.2"` (one atom, as it has
no space) `GetPHPVersion` returns `"7.4,<8.2"`, the text after `">="` as it
stands, which is neither a bare version nor a fixed-point decimal; on `">-1"`
it returns `"-0.900000"`, with a sign, and on `">inf"` it returns `"+Inf"`. -/
theorem C9_not_always_a_version :
    GetPHPVersion (phpSource ">=7.4,<8.2") = "7.4,<8.2" ∧
      isBareVersion "7.4,<8.2" = false ∧ isFixedPoint "7.4,<8.2" = false ∧
      GetPHPVersion (phpSource ">-1") = "-0.900000" ∧
      isBareVersion "-0.900000" = false ∧ isFixedPoint "-0.900000" = false ∧
      GetPHPVersion (phpSource ">inf") = "+Inf" ∧
      isBareVersion "+Inf" = false ∧ isFixedPoint "+Inf" = false := by
  decide

/-- C9, amended: for every manifest the string `GetPHPVersion` returns is the
default `"8.1"`, or a bare version (the whole constraint), or the text that
follows `">="` or `"<="` in a space-separated atom of the declared constraint
(returned as it stands, whatever it is), or the print of a float64: digits, a
dot and six fractional digits, possibly after a minus sign, or one of `"+Inf"`,
`"-Inf"`, `"NaN"`. -/
theorem C9_result_shape (source : Fs) :
    GetPHPVersion source = "8.1" ∨
      isBareVersion (GetPHPVersion source) = true ∨
      (∃ v atom, HasPHPConstraint source v ∧ atom ∈ strings.Split v ' ' ∧
        (atom = ">=" ++ GetPHPVersion source ∨ atom = "<=" ++ GetPHPVersion source)) ∨
      isSignedFixedPoint (GetPHPVersion source) = true ∨
      GetPHPVersion source = "+Inf" ∨ GetPHPVersion source = "-Inf" ∨
      GetPHPVersion source = "NaN" := by
  cases hc : source.composer with
  | none =>
    left
    simp [GetPHPVersion, parseComposerJSON, hc, DefaultPHPVersion]
  | some c =>
    cases hr : c.Require with
    | none =>
      left
      simp [GetPHPVersion, parseComposerJSON, hc, ComposerJSON.GetRequire, hr, DefaultPHPVersion]
    | some m =>
      cases hl : m.lookup "php" with
      | none =>
        left
        simp [GetPHPVersion, parseComposerJSON, hc, ComposerJSON.GetRequire, hr, hl,
          DefaultPHPVersion]
      | some v =>
        have hv : HasPHPConstraint source v := ⟨c, m, hc, hr, hl⟩
        rw [getPHPVersion_of_constraint source v hv]
        by_cases h0 : v = ""
        · left; simp [h0, DefaultPHPVersion]
        · simp only [h0, if_false]
          by_cases hm : regexp.MatchString v = true
          · simp only [hm, if_true]
            exact Or.inr (Or.inl ((matchString_iff_isBareVersion v).1 hm))
          · simp only [hm, if_false]
            rcases loop_shape (strings.Split v ' ') with h | ⟨atom, hmem, h⟩ | h
            · exact Or.inl h
            · exact Or.inr (Or.inr (Or.inl ⟨v, atom, hv, hmem, h⟩))
            · exact Or.inr (Or.inr (Or.inr h))

/-! ## C10 -/

/-- C10: for a manifest that loads, `DetermineProjectFramework` returns Laravel
exactly when `require` has the key `"laravel/framework"`, whatever its
constraint string and whatever other keys (`"topthink/framework"`,
`"codeigniter4/framework"`) are declared next to it. -/
theorem C10_laravel_iff_key (source : Fs) (c : ComposerJSON)
    (h : source.composer = some c) :
    DetermineProjectFramework source = PHPFramework.PHPFrameworkLaravel ↔
      ∃ m, c.Require = some m ∧ "laravel/framework" ∈ m.map Prod.fst := by
  have key : ∀ k, (c.GetRequire k).2 = true ↔ ∃ m, c.Require = some m ∧ k ∈ m.map Prod.fst := by
    intro k
    unfold ComposerJSON.GetRequire
    cases hr : c.Require with
    | none => simp
    | some m =>
      have := lookup_ne_none_iff_mem_keys m k
      simp only [Option.some.injEq, exists_eq_left']
      cases hl : m.lookup k with
      | none => rw [hl] at this; simpa using this
      | some v => rw [hl] at this; simpa using this
  rw [← key]
  simp only [DetermineProjectFramework, parseComposerJSON, h]
  by_cases h1 : (c.GetRequire "laravel/framework").2 = true
  · simp [h1]
  · have h2 : (c.GetRequire "laravel/framework").2 = false := by simpa using h1
    rw [h2]
    simp only [Bool.false_eq_true, if_false, iff_false]
    split_ifs <;> simp

/-- C10 at a manifest that declares all three framework keys. -/
theorem C10_laravel_iff_key_witness :
    DetermineProjectFramework
        ⟨some ⟨"app", some [("codeigniter4/framework", "^4.0"), ("topthink/framework", "^6.0"),
          ("laravel/framework", "")]⟩⟩ = PHPFramework.PHPFrameworkLaravel :=
  (C10_laravel_iff_key _ _ rfl).mpr ⟨_, rfl, by decide⟩

/-! ## C11 -/

/-- C11: when the manifest cannot be loaded, `DetermineProjectFramework` returns
None.  When it loads and `"laravel/framework"` is not declared, the remaining
rules apply in order: the result is ThinkPHP exactly when
`"topthink/framework"` is declared (whether or not `"codeigniter4/framework"`
is), CodeIgniter exactly when `"codeigniter4/framework"` is declared and
`"topthink/framework"` is not, and None exactly when none of the three keys is
declared. -/
theorem C11_first_match_after_laravel (source : Fs) :
    (source.composer = none →
        DetermineProjectFramework source = PHPFramework.PHPFrameworkNone) ∧
      ∀ c, source.composer = some c → ¬ Declares c "laravel/framework" →
        (DetermineProjectFramework source = PHPFramework.PHPFrameworkThinkphp ↔
            Declares c "topthink/framework") ∧
          (DetermineProjectFramework source = PHPFramework.PHPFrameworkCodeigniter ↔
            Declares c "codeigniter4/framework" ∧ ¬ Declares c "topthink/framework") ∧
          (DetermineProjectFramework source = PHPFramework.PHPFrameworkNone ↔
            ¬ Declares c "laravel/framework" ∧ ¬ Declares c "topthink/framework" ∧
              ¬ Declares c "codeigniter4/framework") := by
  refine ⟨fun h => by simp [DetermineProjectFramework, parseComposerJSON, h], ?_⟩
  intro c h hl
  have h1 : (c.GetRequire "laravel/framework").2 = false := by
    cases e : (c.GetRequire "laravel/framework").2 with
    | false => rfl
    | true => exact absurd ((getRequire_found_iff c _).1 e) hl
  simp only [DetermineProjectFramework, parseComposerJSON, h, h1, Bool.false_eq_true, if_false,
    ← getRequire_found_iff]
  cases (c.GetRequire "topthink/framework").2 <;>
    cases (c.GetRequire "codeigniter4/framework").2 <;> simp

/-- C11 at a manifest that declares `"codeigniter4/framework"` and
`"topthink/framework"` but not `"laravel/framework"` (the result is ThinkPHP),
and at a source without a manifest (the result is None). -/
theorem C11_first_match_after_laravel_witness :
    DetermineProjectFramework
        ⟨some ⟨"app", some [("codeigniter4/framework", "^4.0"), ("topthink/framework", "^6.0")]⟩⟩
      = PHPFramework.PHPFrameworkThinkphp ∧
      DetermineProjectFramework ⟨none⟩ = PHPFramework.PHPFrameworkNone :=
  ⟨((C11_first_match_after_laravel _).2 _ rfl (by
      rintro ⟨m, hm, hk⟩
      cases hm
      revert hk
      decide)).1.mpr ⟨_, rfl, by decide⟩,
    (C11_first_match_after_laravel ⟨none⟩).1 rfl⟩

/-! ## C12 -/

/-- C12: for every source, server value and iteration order, the list returned
by `DetermineAptDependencies` contains `"nginx"` exactly when the server is not
`"swoole"`; it holds `"nginx"` no times when the server is `"swoole"` and
exactly once otherwise. -/
theorem C12_nginx_iff_not_swoole (source : Fs) (server : String)
    (order : List String → List String) :
    ("nginx" ∈ DetermineAptDependencies source server order ↔ server ≠ "swoole") ∧
      (DetermineAptDependencies source server order).count "nginx" =
        if server = "swoole" then 0 else 1 := by
  obtain ⟨keys, hk⟩ := determineApt_cases source server order
  have hnot : "nginx" ∉ tableSegment keys := fun hmem =>
    absurd (mem_tableSegment _ _ hmem) (by decide)
  have hcount : (DetermineAptDependencies source server order).count "nginx" =
      if server = "swoole" then 0 else 1 := by
    rw [hk, List.count_append, List.count_eq_zero_of_not_mem hnot, basePrefix]
    by_cases hs : server = "swoole"
    · simp only [hs, if_true, List.append_nil, Nat.add_zero]
      decide
    · simp only [hs, if_false, Nat.add_zero]
      decide
  refine ⟨?_, hcount⟩
  rw [← List.count_pos_iff, hcount]
  by_cases hs : server = "swoole" <;> simp [hs]

/-! ## C13 -/

/-- C13: for every source, server value and iteration order, the first five
elements of the list returned by `DetermineAptDependencies` are the base
packages `"libicu-dev"`, `"jq"`, `"pkg-config"`, `"unzip"`, `"git"`, in that
order. -/
theorem C13_base_packages_first (source : Fs) (server : String)
    (order : List String → List String) :
    (DetermineAptDependencies source server order).take 5 =
      ["libicu-dev", "jq", "pkg-config", "unzip", "git"] := by
  obtain ⟨keys, hk⟩ := determineApt_cases source server order
  rw [hk, basePrefix, List.append_assoc]
  rfl

/-! ## C14 -/

/-- C14: when the manifest cannot be loaded or has no `require` section,
`DetermineAptDependencies` returns exactly the five base packages followed by
`"nginx"` (six elements) when the server is not `"swoole"`, and exactly the
five base packages when it is. -/
theorem C14_no_require_gives_base_list (source : Fs) (server : String)
    (order : List String → List String)
    (h : source.composer = none ∨ ∃ c, source.composer = some c ∧ c.Require = none) :
    DetermineAptDependencies source server order =
      if server = "swoole" then ["libicu-dev", "jq", "pkg-config", "unzip", "git"]
      else ["libicu-dev", "jq", "pkg-config", "unzip", "git", "nginx"] := by
  rw [determineApt_of_no_require source server order h, basePrefix]
  by_cases hs : server = "swoole" <;> simp [hs, baseDep]

/-- C14 at a manifest without a `require` section, for the servers `""` and
`"swoole"`. -/
theorem C14_no_require_gives_base_list_witness :
    DetermineAptDependencies ⟨some ⟨"app", none⟩⟩ "" id =
        ["libicu-dev", "jq", "pkg-config", "unzip", "git", "nginx"] ∧
      DetermineAptDependencies ⟨some ⟨"app", none⟩⟩ "swoole" id =
        ["libicu-dev", "jq", "pkg-config", "unzip", "git"] :=
  ⟨C14_no_require_gives_base_list ⟨some ⟨"app", none⟩⟩ "" id (Or.inr ⟨_, rfl, rfl⟩),
    C14_no_require_gives_base_list ⟨some ⟨"app", none⟩⟩ "swoole" id (Or.inr ⟨_, rfl, rfl⟩)⟩

/-! ## C15 -/

/-- C15: for a manifest that loads and has a `require` section, and for every
order in which its keys are visited, the result of `DetermineAptDependencies`
is the base(+nginx) prefix followed by the concatenation, in that order, of
`depMap[dep]` for exactly the visited keys `dep` that are in `depMap`; its
length is the sum of the lengths of the matched entries; and when the keys are
visited once each (a permutation of the distinct keys of the map) and both
`"ext-openssl"` and `"ext-curl"` are declared, `"libssl-dev"` is in the result
exactly twice. -/
theorem C15_table_segment_in_order (source : Fs) (server : String)
    (order : List String → List String) (c : ComposerJSON) (m : List (String × String))
    (hc : source.composer = some c) (hm : c.Require = some m) :
    DetermineAptDependencies source server order =
        basePrefix server ++ tableSegment (order (m.map Prod.fst)) ∧
      (tableSegment (order (m.map Prod.fst))).length =
        ((matchedKeys (order (m.map Prod.fst))).map
          (fun dep => ((depMap.lookup dep).getD []).length)).sum ∧
      ((m.map Prod.fst).Nodup → (order (m.map Prod.fst)).Perm (m.map Prod.fst) →
        "ext-openssl" ∈ m.map Prod.fst → "ext-curl" ∈ m.map Prod.fst →
        (DetermineAptDependencies source server order).count "libssl-dev" = 2) := by
  have hd := determineApt_of_require source server order c m hc hm
  refine ⟨hd, ?_, ?_⟩
  · simp [tableSegment, List.length_flatMap, Function.comp_def]
  · intro hnd hperm h1 h2
    have hb : (basePrefix server).count "libssl-dev" = 0 := by
      simp only [basePrefix]
      by_cases hs : server = "swoole"
      · simp only [hs, if_true, List.append_nil]; decide
      · simp only [hs, if_false]; decide
    rw [hd, List.count_append, hb, count_libssl_tableSegment, hperm.count_eq, hperm.count_eq,
      List.count_eq_one_of_mem hnd h1, List.count_eq_one_of_mem hnd h2]

/-- C15 at a manifest that declares `"ext-openssl"`, a package outside the
table and `"ext-curl"`, its keys visited in reverse. -/
theorem C15_table_segment_in_order_witness :
    DetermineAptDependencies
        ⟨some ⟨"app", some [("ext-openssl", "*"), ("monolog/monolog", "^3.0"), ("ext-curl", "*")]⟩⟩
        "" List.reverse =
      ["libicu-dev", "jq", "pkg-config", "unzip", "git", "nginx",
        "libcurl4-openssl-dev", "libssl-dev", "libssl-dev"] ∧
      (DetermineAptDependencies
        ⟨some ⟨"app", some [("ext-openssl", "*"), ("monolog/monolog", "^3.0"), ("ext-curl", "*")]⟩⟩
        "" List.reverse).count "libssl-dev" = 2 :=
  ⟨(C15_table_segment_in_order _ "" List.reverse _
      [("ext-openssl", "*"), ("monolog/monolog", "^3.0"), ("ext-curl", "*")] rfl rfl).1.trans
      (by decide),
    (C15_table_segment_in_order _ "" List.reverse _
      [("ext-openssl", "*"), ("monolog/monolog", "^3.0"), ("ext-curl", "*")] rfl rfl).2.2 (by decide)
      (List.reverse_perm _) (by decide) (by decide)⟩

/-! ## C16 -/

/-- C16: `DetermineApplication` returns (AcgFaka, Composer) exactly when the
manifest loads and its name is the string `"lizhipay/acg-faka"`; for a manifest
that loads with any other name it returns (Default, Composer); when the
manifest cannot be loaded it returns (Default, None).  So the property is
Composer exactly when the manifest was loaded. -/
theorem C16_application_by_name (source : Fs) :
    (DetermineApplication source =
        (PHPApplication.PHPApplicationAcgFaka, PHPProperty.PHPPropertyComposer) ↔
        ∃ c, source.composer = some c ∧ c.Name = "lizhipay/acg-faka") ∧
      (∀ c, source.composer = some c → c.Name ≠ "lizhipay/acg-faka" →
        DetermineApplication source =
          (PHPApplication.PHPApplicationDefault, PHPProperty.PHPPropertyComposer)) ∧
      (source.composer = none →
        DetermineApplication source =
          (PHPApplication.PHPApplicationDefault, PHPProperty.PHPPropertyNone)) ∧
      ((DetermineApplication source).2 = PHPProperty.PHPPropertyComposer ↔
        source.composer ≠ none) := by
  cases hc : source.composer with
  | none => simp [DetermineApplication, parseComposerJSON, hc]
  | some c =>
    by_cases hn : c.Name = "lizhipay/acg-faka"
    · simp [DetermineApplication, parseComposerJSON, hc, hn]
    · simp [DetermineApplication, parseComposerJSON, hc, hn]

/-- C16 at manifests whose names differ from `"lizhipay/acg-faka"` in case or
by a trailing space (Default), and at a source without a manifest. -/
theorem C16_application_by_name_witness :
    DetermineApplication ⟨some ⟨"Lizhipay/ACG-Faka", none⟩⟩ =
        (PHPApplication.PHPApplicationDefault, PHPProperty.PHPPropertyComposer) ∧
      DetermineApplication ⟨some ⟨"lizhipay/acg-faka ", none⟩⟩ =
        (PHPApplication.PHPApplicationDefault, PHPProperty.PHPPropertyComposer) ∧
      DetermineApplication ⟨none⟩ =
        (PHPApplication.PHPApplicationDefault, PHPProperty.PHPPropertyNone) :=
  ⟨(C16_application_by_name _).2.1 _ rfl (by decide),
    (C16_application_by_name _).2.1 _ rfl (by decide),
    (C16_application_by_name ⟨none⟩).2.2.1 rfl⟩

/-! ## C17 -/

/-- C17, as stated, fails for `DetermineAptDependencies`: a Go `range` over a map
visits the keys in an order that may change from one call to the next.  With
`"ext-zip"` and `"ext-gd"` declared, a call that visits the keys in one order
and a call that visits them in the other order (both visit each key once)
return different sequences. -/
theorem C17_range_order_changes_sequence :
    (id ["ext-zip", "ext-gd"]).Perm ["ext-zip", "ext-gd"] ∧
      (List.reverse ["ext-zip", "ext-gd"]).Perm ["ext-zip", "ext-gd"] ∧
      DetermineAptDependencies ⟨some ⟨"app", some [("ext-zip", "*"), ("ext-gd", "*")]⟩⟩ "" id =
        ["libicu-dev", "jq", "pkg-config", "unzip", "git", "nginx", "libzip-dev", "libpng-dev"] ∧
      DetermineAptDependencies ⟨some ⟨"app", some [("ext-zip", "*"), ("ext-gd", "*")]⟩⟩ ""
          List.reverse =
        ["libicu-dev", "jq", "pkg-config", "unzip", "git", "nginx", "libpng-dev", "libzip-dev"] ∧
      DetermineAptDependencies ⟨some ⟨"app", some [("ext-zip", "*"), ("ext-gd", "*")]⟩⟩ "" id ≠
        DetermineAptDependencies ⟨some ⟨"app", some [("ext-zip", "*"), ("ext-gd", "*")]⟩⟩ ""
          List.reverse :=
  ⟨List.Perm.refl _, List.reverse_perm _, by decide, by decide, by decide⟩

/-- C17, amended: two calls on the same manifest snapshot give identical results
for `GetPHPVersion`, `DetermineProjectFramework` and `DetermineApplication`.
For `DetermineAptDependencies` with the same server value, whatever the orders
`o1` and `o2` in which the two calls visit the keys of the `require` map (each
a permutation of the keys), the two results have the same base(+nginx) prefix
and are permutations of each other: the same packages, each the same number of
times; they are identical when both calls visit the keys in the same order. -/
theorem C17_same_snapshot_same_result (s1 s2 : Fs) (server : String)
    (o1 o2 : List String → List String)
    (hsame : s1.composer = s2.composer)
    (h1 : ∀ keys, (o1 keys).Perm keys) (h2 : ∀ keys, (o2 keys).Perm keys) :
    GetPHPVersion s1 = GetPHPVersion s2 ∧
      DetermineProjectFramework s1 = DetermineProjectFramework s2 ∧
      DetermineApplication s1 = DetermineApplication s2 ∧
      (DetermineAptDependencies s1 server o1).Perm (DetermineAptDependencies s2 server o2) ∧
      (DetermineAptDependencies s1 server o1).take (basePrefix server).length =
        (DetermineAptDependencies s2 server o2).take (basePrefix server).length ∧
      DetermineAptDependencies s1 server o1 = DetermineAptDependencies s2 server o1 := by
  obtain ⟨c1⟩ := s1
  obtain ⟨c2⟩ := s2
  simp only at hsame
  subst hsame
  refine ⟨rfl, rfl, rfl, ?_, ?_, rfl⟩
  · cases hc : c1 with
    | none =>
      rw [determineApt_of_no_require _ _ _ (Or.inl rfl),
        determineApt_of_no_require _ _ _ (Or.inl rfl)]
    | some c =>
      cases hr : c.Require with
      | none =>
        rw [determineApt_of_no_require _ _ _ (Or.inr ⟨c, rfl, hr⟩),
          determineApt_of_no_require _ _ _ (Or.inr ⟨c, rfl, hr⟩)]
      | some m =>
        rw [determineApt_of_require _ _ _ c m rfl hr, determineApt_of_require _ _ _ c m rfl hr]
        exact List.Perm.append_left _
          (tableSegment_perm _ _ ((h1 _).trans (h2 _).symm))
  · obtain ⟨k1, e1⟩ := determineApt_cases ⟨c1⟩ server o1
    obtain ⟨k2, e2⟩ := determineApt_cases ⟨c1⟩ server o2
    rw [e1, e2, List.take_left', List.take_left'] <;> rfl

/-- C17 at a manifest that declares `"ext-zip"` and `"ext-gd"`, one call
visiting the keys as listed and one in reverse: the results are permutations
of each other. -/
theorem C17_same_snapshot_same_result_witness :
    (DetermineAptDependencies ⟨some ⟨"app", some [("ext-zip", "*"), ("ext-gd", "*")]⟩⟩ "" id).Perm
      (DetermineAptDependencies ⟨some ⟨"app", some [("ext-zip", "*"), ("ext-gd", "*")]⟩⟩ ""
        List.reverse) :=
  (C17_same_snapshot_same_result _ _ "" id List.reverse rfl (fun _ => List.Perm.refl _)
    (fun _ => List.reverse_perm _)).2.2.2.1

/-! ## C18 -/

/-- C18: for an atom `"<" ++ n` where `n` does not start with `=`, the `<` branch
of `GetPHPVersion` is taken, trimming the prefix `"<="` leaves the atom as it
is, `ParseFloat` rejects that text (it starts with `<`), and the atom is
skipped: the loop goes on with the remaining atoms, so the branch never
returns a value.  A constraint that is such an atom alone resolves to the
default `"8.1"`. -/
theorem C18_lt_branch_always_skips (n : String) (hn : n.data.head? ≠ some '=') :
    strings.HasPrefix ("<" ++ n) "<" = true ∧
      strings.HasPrefix ("<" ++ n) "<=" = false ∧
      strings.TrimPrefix ("<" ++ n) "<=" = "<" ++ n ∧
      strconv.ParseFloat (strings.TrimPrefix ("<" ++ n) "<=") = .error .ErrSyntax ∧
      (∀ ranges, GetPHPVersion.loop (("<" ++ n) :: ranges) = GetPHPVersion.loop ranges) ∧
      (∀ source, ' ' ∉ n.data → HasPHPConstraint source ("<" ++ n) →
        GetPHPVersion source = "8.1") := by
  have hneq : (['=' ].isPrefixOf n.data) = false := by
    cases hnd : n.data with
    | nil => rfl
    | cons d ds =>
      rw [hnd] at hn
      have : d ≠ '=' := by simpa using hn
      simp [List.isPrefixOf, Ne.symm this]
  have h1 : strings.HasPrefix ("<" ++ n) ">=" = false := by
    simp [strings.HasPrefix, String.data_append, List.isPrefixOf]
  have h2 : strings.HasPrefix ("<" ++ n) ">" = false := by
    simp [strings.HasPrefix, String.data_append, List.isPrefixOf]
  have h3 : strings.HasPrefix ("<" ++ n) "<=" = false := by
    simpa [strings.HasPrefix, String.data_append, List.isPrefixOf] using hneq
  have h4 : strings.TrimPrefix ("<" ++ n) "<=" = "<" ++ n := by
    simp [strings.TrimPrefix, h3]
  have h5 : strconv.ParseFloat ("<" ++ n) = .error .ErrSyntax :=
    parseFloat_lt ("<" ++ n) n.data (by simp [String.data_append])
  have h6 : ∀ ranges, GetPHPVersion.loop (("<" ++ n) :: ranges) = GetPHPVersion.loop ranges := by
    intro ranges
    rw [GetPHPVersion.loop]
    simp only [h1, h2, h3, Bool.false_eq_true, if_false, hasPrefix_append, if_true, h4, h5]
  refine ⟨hasPrefix_append _ _, h3, h4, by rw [h4]; exact h5, h6, ?_⟩
  intro source hsp hv
  rw [getPHPVersion_of_constraint source _ hv]
  have hd : ("<" ++ n).data = '<' :: n.data := by simp [String.data_append]
  have hne : "<" ++ n ≠ "" := by
    intro e
    have := congrArg String.data e
    rw [hd] at this
    exact absurd this (by simp)
  have hm := matchString_false_of_head _ _ _ hd (by decide)
  have hsplit : strings.Split ("<" ++ n) ' ' = ["<" ++ n] := by
    have : ' ' ∉ ("<" ++ n).data := by simp [hd, hsp]
    simp only [strings.Split, splitChars_of_not_mem _ _ this, List.map_cons, List.map_nil]
  simp only [hne, hm, if_false, Bool.false_eq_true, hsplit, h6]
  rfl

/-- C18 at the constraint `"<8.3"`. -/
theorem C18_lt_branch_always_skips_witness :
    GetPHPVersion (phpSource "<8.3") = "8.1" :=
  (C18_lt_branch_always_skips "8.3" (by decide)).2.2.2.2.2 (phpSource "<8.3") (by decide)
    (hasPHPConstraint_phpSource _)

/-! ## C19 -/

/-- C19: for every source, server value and iteration order, every element of
the list returned by `DetermineAptDependencies` is one of the eleven fixed
package names.  The manifest only selects among them: two manifests whose
visited keys agree on the keys of `depMap` give the same list, whatever their
other dependency names, their constraint strings and their project names. -/
theorem C19_only_fixed_packages (source : Fs) (server : String)
    (order : List String → List String) :
    (∀ x ∈ DetermineAptDependencies source server order, x ∈ fixedPackages) ∧
      ∀ (name1 name2 : String) (m1 m2 : List (String × String)),
        matchedKeys (order (m1.map Prod.fst)) = matchedKeys (order (m2.map Prod.fst)) →
        DetermineAptDependencies ⟨some ⟨name1, some m1⟩⟩ server order =
          DetermineAptDependencies ⟨some ⟨name2, some m2⟩⟩ server order := by
  constructor
  · obtain ⟨keys, hk⟩ := determineApt_cases source server order
    intro x hx
    rw [hk, List.mem_append] at hx
    rcases hx with hx | hx
    · simp only [basePrefix, baseDep, List.mem_append] at hx
      rcases hx with hx | hx
      · simp only [List.mem_cons, List.mem_singleton, List.not_mem_nil, or_false] at hx
        rcases hx with rfl | rfl | rfl | rfl | rfl <;> decide
      · by_cases hs : server = "swoole"
        · simp [hs] at hx
        · simp only [hs, if_false, List.mem_singleton] at hx
          subst hx
          decide
    · have := mem_tableSegment x keys hx
      simp only [List.mem_cons, List.mem_singleton, List.not_mem_nil, or_false] at this
      rcases this with rfl | rfl | rfl | rfl | rfl <;> decide
  · intro name1 name2 m1 m2 h
    rw [determineApt_of_require _ server order _ m1 rfl rfl,
      determineApt_of_require _ server order _ m2 rfl rfl, tableSegment, tableSegment, h]

/-- C19 at two manifests that both declare `"ext-gd"`, with different
constraint strings and one with a dependency outside the table. -/
theorem C19_only_fixed_packages_witness :
    DetermineAptDependencies
        ⟨some ⟨"a", some [("ext-gd", "*"), ("monolog/monolog", "^3.0")]⟩⟩ "swoole" id =
      DetermineAptDependencies ⟨some ⟨"b", some [("ext-gd", ">=1 nginx")]⟩⟩ "swoole" id :=
  (C19_only_fixed_packages ⟨none⟩ "swoole" id).2 "a" "b"
    [("ext-gd", "*"), ("monolog/monolog", "^3.0")] [("ext-gd", ">=1 nginx")] (by decide)

end Zbpack
